import Mathlib

/-!
# Verification of `matrix::Matrix<Type, M, N>` (Matrix.hpp)

The C++ class stores `Type _data[M][N]`: `M * N` scalars laid out row after row.
The embedding keeps that layout as a flat list of length `M * N`; the element
`_data[i][j]` lives at flat position `i * N + j`.

Indexing outside `[0, M) × [0, N)` is undefined behaviour in the source.  The
accessors below return `none` there, and every member function is a computation
in `Option`: a result `some r` means the function ran to completion without
touching an element outside the matrix.

The scalar `Type` is a Lean type `α` with whatever operations the member
function uses (`0`, `1`, `+`, `-`, `*`, `!=`).  No law is assumed unless a
theorem says so (`Semiring α`, ... for the exact scalar types).
`memset(_data, 0, sizeof(_data))` and the value initialisation `_data()` are
read as "every element becomes `0 : α`", which is what they mean for the
arithmetic scalar types the library is instantiated with.
`FloatFrag` is a fragment of `float` with a not-a-number value, for running the
library on a scalar whose `==` is not reflexive.

The copy constructor and the implicit assignment copy `_data` element for
element, so a matrix passed, returned or assigned by value is the Lean value
itself.  A member function that changes its receiver (`setIdentity`, `+=`, ...)
returns the receiver's new value.
-/

namespace matrix

/-! ## A scalar type with a not-a-number value -/

/-- A fragment of the scalar type `float` (the library's `Matrix3f` is
`Matrix<float, 3, 3>`): the not-a-number value and the integers, taken small
enough to be exact in `float`. -/
inductive FloatFrag where
  | nan : FloatFrag
  | ofInt (n : Int) : FloatFrag
  deriving DecidableEq

namespace FloatFrag

/-- The comparison `==` of `float`: a not-a-number compares unequal to
everything, itself included, so `x != x` is true for it. -/
instance instBEq : BEq FloatFrag where
  beq
    | ofInt a, ofInt b => decide (a = b)
    | _, _ => false

/-- The value whose bytes are all zero: `0.0f`. -/
instance instZero : Zero FloatFrag where
  zero := ofInt 0

/-- The sum of `float`: a not-a-number operand gives a not-a-number. -/
instance instAdd : Add FloatFrag where
  add
    | ofInt a, ofInt b => ofInt (a + b)
    | _, _ => nan

end FloatFrag

/-! ## Storage -/

/-- The class `Matrix<Type, M, N>`: its only member is `Type _data[M][N]`. -/
structure Matrix (α : Type) (M N : Nat) where
  /-- The array `_data[M][N]`, row-major. -/
  _data : List α
  /-- The array has exactly `M * N` elements. -/
  size_eq : _data.length = M * N

namespace Matrix

variable {α : Type} {M N P Q : Nat}

instance instDecidableEq [DecidableEq α] : DecidableEq (Matrix α M N) := fun A B =>
  if h : A._data = B._data then
    isTrue (by cases A; cases B; cases h; rfl)
  else
    isFalse (fun e => h (by rw [e]))

/-- Embeds `Matrix() : _data() {}`: value initialisation, every element is zero. -/
def ctor [Zero α] : Matrix α M N :=
  ⟨List.replicate (M * N) 0, List.length_replicate _ _⟩

/-- Embeds `Type operator()(size_t i, size_t j) const { return _data[i][j]; }`.
Reading outside the array is undefined behaviour: `none`. -/
def opCall (self : Matrix α M N) (i j : Nat) : Option α :=
  if i < M ∧ j < N then self._data[i * N + j]? else none

/-- Embeds `Type &operator()(size_t i, size_t j)` used as the target of an assignment:
`self(i, j) = v`.  Writing outside the array is undefined behaviour: `none`. -/
def opCallAssign (self : Matrix α M N) (i j : Nat) (v : α) : Option (Matrix α M N) :=
  if i < M ∧ j < N then
    some ⟨self._data.set (i * N + j) v, by rw [List.length_set]; exact self.size_eq⟩
  else none

/-- Embeds `void setZero() { memset(_data, 0, sizeof(_data)); }`: the whole array is
overwritten with zero bytes, whatever it held. -/
def setZero [Zero α] (_self : Matrix α M N) : Matrix α M N :=
  ⟨List.replicate (M * N) 0, List.length_replicate _ _⟩

/-! ## Loops -/

/-- Loop `for (size_t i = 0; i < n; i++) body`, the body acting on the state `σ`. -/
def forRange {σ : Type} (n : Nat) (body : Nat → σ → Option σ) (s : σ) : Option σ :=
  (List.range n).foldlM (fun s i => body i s) s

/-- Loop `for (size_t i = 0; i < m and i < n; i++) body`: the loop runs through
`0, 1, ...` below `m` and stops at the first index that is not below `n`. -/
def forRange2 {σ : Type} (m n : Nat) (body : Nat → σ → Option σ) (s : σ) : Option σ :=
  ((List.range m).takeWhile (fun i => decide (i < n))).foldlM (fun s i => body i s) s

/-- A loop whose body may execute `return v`: `some v` stops the loop with that
value, `none` goes on to the next index.  The result is `none` when the loop
ran to its end. -/
def forReturn {ρ : Type} : List Nat → (Nat → Option (Option ρ)) → Option (Option ρ)
  | [], _ => some none
  | i :: is, body =>
    match body i with
    | none => none
    | some (some v) => some (some v)
    | some none => forReturn is body

/-! ## Member functions -/

/-- The body of `operator*(const Matrix<Type, N, P> &other)` after the
declaration `Matrix<Type, M, P> res;`, with `res` holding `fresh` at that point:
`res.setZero()`, then the three loops `i`, `k`, `j` accumulating
`res(i, k) += self(i, j) * other(j, k)`. -/
def opMulFrom [Zero α] [Add α] [Mul α] (fresh : Matrix α M P)
    (self : Matrix α M N) (other : Matrix α N P) : Option (Matrix α M P) :=
  let res := fresh.setZero
  forRange M (fun i res =>
    forRange P (fun k res =>
      forRange N (fun j res => do
        let a ← self.opCall i j
        let b ← other.opCall j k
        let r ← res.opCall i k
        res.opCallAssign i k (r + a * b)) res) res) res

/-- Embeds `Matrix<Type, M, P> operator*(const Matrix<Type, N, P> &other) const`:
`res` is default constructed, then the body runs. -/
def opMul [Zero α] [Add α] [Mul α]
    (self : Matrix α M N) (other : Matrix α N P) : Option (Matrix α M P) :=
  opMulFrom (ctor : Matrix α M P) self other

/-- Embeds `Matrix<Type, M, N> operator+(const Matrix<Type, M, N> &other) const`. -/
def opAdd [Zero α] [Add α] (self other : Matrix α M N) : Option (Matrix α M N) :=
  let res : Matrix α M N := ctor
  forRange M (fun i res =>
    forRange N (fun j res => do
      let a ← self.opCall i j
      let b ← other.opCall i j
      res.opCallAssign i j (a + b)) res) res

/-- Embeds `bool operator==(const Matrix<Type, M, N> &other) const`: `return false` at
the first position where `self(i, j) != other(i, j)`, `return true` after the
loops.  (The local `res` the source declares there is never used.) -/
def opEq [BEq α] (self other : Matrix α M N) : Option Bool :=
  match forReturn (List.range M) (fun i =>
      forReturn (List.range N) (fun j => do
        let a ← self.opCall i j
        let b ← other.opCall i j
        if a != b then pure (some false) else pure none)) with
  | none => none
  | some (some v) => some v
  | some none => some true

/-- Embeds `Matrix<Type, M, N> operator-(const Matrix<Type, M, N> &other) const`. -/
def opSub [Zero α] [Sub α] (self other : Matrix α M N) : Option (Matrix α M N) :=
  let res : Matrix α M N := ctor
  forRange M (fun i res =>
    forRange N (fun j res => do
      let a ← self.opCall i j
      let b ← other.opCall i j
      res.opCallAssign i j (a - b)) res) res

/-- Embeds `void operator+=(const Matrix<Type, M, N> &other) { self = self + other; }`:
the result is the new value of the receiver. -/
def opAddAssign [Zero α] [Add α] (self other : Matrix α M N) : Option (Matrix α M N) := do
  let sum ← opAdd self other
  pure sum

/-- Embeds `void operator-=(const Matrix<Type, M, N> &other) { self = self - other; }`:
the result is the new value of the receiver. -/
def opSubAssign [Zero α] [Sub α] (self other : Matrix α M N) : Option (Matrix α M N) := do
  let diff ← opSub self other
  pure diff

/-- Embeds `Matrix<Type, M, N> operator*(Type scalar) const`. -/
def opMulScalar [Zero α] [Mul α] (self : Matrix α M N) (scalar : α) :
    Option (Matrix α M N) :=
  let res : Matrix α M N := ctor
  forRange M (fun i res =>
    forRange N (fun j res => do
      let a ← self.opCall i j
      res.opCallAssign i j (a * scalar)) res) res

/-- Embeds `void operator*=(Type scalar)`: the loop works on the receiver itself,
`self(i, j) = self(i, j) * scalar`; the result is the new value of the receiver. -/
def opMulAssignScalar [Mul α] (self : Matrix α M N) (scalar : α) :
    Option (Matrix α M N) :=
  forRange M (fun i self =>
    forRange N (fun j self => do
      let a ← self.opCall i j
      self.opCallAssign i j (a * scalar)) self) self

/-- Embeds `Matrix<Type, N, M> transpose() const`. -/
def transpose [Zero α] (self : Matrix α M N) : Option (Matrix α N M) :=
  let res : Matrix α N M := ctor
  forRange M (fun i res =>
    forRange N (fun j res => do
      let a ← self.opCall i j
      res.opCallAssign j i a) res) res

/-- Embeds `inline Matrix<Type, N, M> T() const { return transpose(); }`. -/
def T [Zero α] (self : Matrix α M N) : Option (Matrix α N M) :=
  self.transpose

/-- Embeds `void setIdentity()`: `setZero()`, then `self(i, i) = 1` in the loop
`for (size_t i = 0; i < M and i < N; i++)`; the result is the new value of the
receiver. -/
def setIdentity [Zero α] [One α] (self : Matrix α M N) : Option (Matrix α M N) :=
  let self := self.setZero
  forRange2 M N (fun i self => self.opCallAssign i i 1) self

/-- Embeds `Matrix<Type, M, N> operator+(Type scalar) const`. -/
def opAddScalar [Zero α] [Add α] (self : Matrix α M N) (scalar : α) :
    Option (Matrix α M N) :=
  let res : Matrix α M N := ctor
  forRange M (fun i res =>
    forRange N (fun j res => do
      let a ← self.opCall i j
      res.opCallAssign i j (a + scalar)) res) res

/-- Embeds `void operator/=(Type scalar) { self = self * (1.0f / scalar); }`.
The quotient `1.0f / scalar` is computed in floating point and then converted
to `Type`, because it is passed to `operator*(Type scalar)`.  What that
conversion yields depends on the scalar type, so it is the parameter `recip`
(`none` where the conversion is undefined).  The result is the new value of the
receiver. -/
def opDivAssign [Zero α] [Mul α] (recip : α → Option α) (self : Matrix α M N)
    (scalar : α) : Option (Matrix α M N) := do
  let r ← recip scalar
  let prod ← opMulScalar self r
  pure prod

/-- The value of `1.0f / scalar` converted to `Type` when `Type` is a signed
integer type: the quotient is `1` for `scalar = 1`, `-1` for `scalar = -1`, has
magnitude at most `0.5` for every other non-zero `scalar`, and the conversion to
an integer drops the fractional part.  For `scalar = 0` the quotient is
infinite and its conversion is undefined. -/
def recipInt (scalar : Int) : Option Int :=
  if scalar = 0 then none
  else if scalar = 1 then some 1
  else if scalar = -1 then some (-1)
  else some 0

/-- Embeds `inline void swapRows(size_t a, size_t b)`: nothing happens when
`a == b`; otherwise, column by column, the elements `(a, j)` and `(b, j)` are
exchanged through `tmp`.  The result is the new value of the receiver. -/
def swapRows (self : Matrix α M N) (a b : Nat) : Option (Matrix α M N) :=
  if a = b then some self
  else
    forRange N (fun j self => do
      let tmp ← self.opCall a j
      let v ← self.opCall b j
      let self ← self.opCallAssign a j v
      self.opCallAssign b j tmp) self

/-- Embeds `inline void swapCols(size_t a, size_t b)`: nothing happens when
`a == b`; otherwise, row by row, the elements `(i, a)` and `(i, b)` are
exchanged through `tmp`.  The result is the new value of the receiver. -/
def swapCols (self : Matrix α M N) (a b : Nat) : Option (Matrix α M N) :=
  if a = b then some self
  else
    forRange M (fun i self => do
      let tmp ← self.opCall i a
      let v ← self.opCall i b
      let self ← self.opCallAssign i a v
      self.opCallAssign i b tmp) self

/-- The call `memcpy(dst, src, n)` on arrays of scalars, `n` counted in scalars:
the first `n` elements of `dst` become the first `n` elements of `src`, and `dst`
keeps its length.  Reading past the end of `src` or writing past the end of
`dst` is undefined behaviour: `none`. -/
def memcpy (dst src : List α) (n : Nat) : Option {d : List α // d.length = dst.length} :=
  if h : n ≤ src.length ∧ n ≤ dst.length then
    some ⟨src.take n ++ dst.drop n, by
      rw [List.length_append, List.length_take, List.length_drop, Nat.min_eq_left h.1]
      exact Nat.add_sub_cancel' h.2⟩
  else none

/-- Embeds `Matrix(const Type *data) : _data() { memcpy(_data, data, sizeof(_data)); }`:
`data` is the array the pointer points into, `sizeof(_data)` is `M * N` scalars. -/
def ctorData [Zero α] (data : List α) : Option (Matrix α M N) :=
  let self : Matrix α M N := ctor
  (memcpy self._data data (M * N)).map (fun d => ⟨d.val, d.property.trans self.size_eq⟩)

/-- Embeds `Type *data() { return _data[0]; }`: the pointer to the first element,
read as the flat array it points into. -/
def data (self : Matrix α M N) : List α :=
  self._data

/-! ## Reading a matrix position by position -/

/-- The element `_data[i][j]` of a matrix, for a position inside it. -/
def entry (A : Matrix α M N) (i : Fin M) (j : Fin N) : α :=
  A._data.get ⟨i.val * N + j.val, by
    rw [A.size_eq]
    have h1 : i.val * N + j.val < (i.val + 1) * N := by
      rw [Nat.add_mul, Nat.one_mul]; exact Nat.add_lt_add_left j.isLt _
    exact Nat.lt_of_lt_of_le h1 (Nat.mul_le_mul_right N i.isLt)⟩

/-- The matrix with `_data[i][j]` replaced by `v`, for a position inside it. -/
def put (A : Matrix α M N) (i : Fin M) (j : Fin N) (v : α) : Matrix α M N :=
  ⟨A._data.set (i.val * N + j.val) v, by rw [List.length_set]; exact A.size_eq⟩

/-! ## Positions and the flat array -/

/-- Flat position of `_data[i][j]` is inside the array. -/
theorem flat_lt {M N i j : Nat} (hi : i < M) (hj : j < N) : i * N + j < M * N := by
  have h1 : i * N + j < (i + 1) * N := by
    rw [Nat.add_mul, Nat.one_mul]; omega
  exact Nat.lt_of_lt_of_le h1 (Nat.mul_le_mul_right N hi)

/-- Two in-range positions with the same flat position are the same. -/
theorem flat_inj {N i j i' j' : Nat} (hj : j < N) (hj' : j' < N)
    (h : i * N + j = i' * N + j') : i = i' ∧ j = j' := by
  have hN : 0 < N := Nat.lt_of_le_of_lt (Nat.zero_le _) hj
  have e1 : (i * N + j) / N = i := by
    rw [Nat.mul_comm, Nat.mul_add_div hN, Nat.div_eq_of_lt hj, Nat.add_zero]
  have e2 : (i' * N + j') / N = i' := by
    rw [Nat.mul_comm, Nat.mul_add_div hN, Nat.div_eq_of_lt hj', Nat.add_zero]
  have hi : i = i' := by rw [← e1, ← e2, h]
  subst hi
  exact ⟨rfl, Nat.add_left_cancel h⟩

theorem getElem?_flat (A : Matrix α M N) (i : Fin M) (j : Fin N) :
    A._data[i.val * N + j.val]? = some (A.entry i j) := by
  unfold entry
  rw [List.getElem?_eq_getElem]
  rfl

theorem opCall_fin (A : Matrix α M N) (i : Fin M) (j : Fin N) :
    A.opCall i.val j.val = some (A.entry i j) := by
  unfold opCall
  rw [if_pos ⟨i.isLt, j.isLt⟩]
  exact getElem?_flat A i j

theorem opCall_lt (A : Matrix α M N) {i j : Nat} (hi : i < M) (hj : j < N) :
    A.opCall i j = some (A.entry ⟨i, hi⟩ ⟨j, hj⟩) :=
  opCall_fin A ⟨i, hi⟩ ⟨j, hj⟩

theorem opCall_none (A : Matrix α M N) {i j : Nat} (h : ¬ (i < M ∧ j < N)) :
    A.opCall i j = none := by
  unfold opCall
  rw [if_neg h]

theorem opCallAssign_fin (A : Matrix α M N) (i : Fin M) (j : Fin N) (v : α) :
    A.opCallAssign i.val j.val v = some (A.put i j v) := by
  unfold opCallAssign
  rw [if_pos ⟨i.isLt, j.isLt⟩]
  rfl

theorem opCallAssign_lt (A : Matrix α M N) {i j : Nat} (hi : i < M) (hj : j < N) (v : α) :
    A.opCallAssign i j v = some (A.put ⟨i, hi⟩ ⟨j, hj⟩ v) :=
  opCallAssign_fin A ⟨i, hi⟩ ⟨j, hj⟩ v

theorem opCallAssign_none (A : Matrix α M N) {i j : Nat} (h : ¬ (i < M ∧ j < N)) (v : α) :
    A.opCallAssign i j v = none := by
  unfold opCallAssign
  rw [if_neg h]

theorem entry_put_same (A : Matrix α M N) (i : Fin M) (j : Fin N) (v : α) :
    (A.put i j v).entry i j = v := by
  have h := getElem?_flat (A.put i j v) i j
  have h2 : (A.put i j v)._data[i.val * N + j.val]? = some v := by
    show (A._data.set (i.val * N + j.val) v)[i.val * N + j.val]? = some v
    rw [List.getElem?_set_self]
    rw [A.size_eq]
    exact flat_lt i.isLt j.isLt
  rw [h2] at h
  exact (Option.some.inj h).symm

theorem entry_put_ne (A : Matrix α M N) (i i' : Fin M) (j j' : Fin N) (v : α)
    (h : ¬ (i' = i ∧ j' = j)) : (A.put i j v).entry i' j' = A.entry i' j' := by
  have h1 := getElem?_flat (A.put i j v) i' j'
  have h2 : (A.put i j v)._data[i'.val * N + j'.val]? = A._data[i'.val * N + j'.val]? := by
    show (A._data.set (i.val * N + j.val) v)[i'.val * N + j'.val]? = _
    apply List.getElem?_set_ne
    intro e
    have := flat_inj j.isLt j'.isLt e
    exact h ⟨Fin.ext this.1.symm, Fin.ext this.2.symm⟩
  rw [h2, getElem?_flat A i' j'] at h1
  exact (Option.some.inj h1).symm

theorem entry_put (A : Matrix α M N) (i i' : Fin M) (j j' : Fin N) (v : α) :
    (A.put i j v).entry i' j' = if i' = i ∧ j' = j then v else A.entry i' j' := by
  by_cases h : i' = i ∧ j' = j
  · rw [if_pos h]
    obtain ⟨rfl, rfl⟩ := h
    exact entry_put_same A _ _ v
  · rw [if_neg h]
    exact entry_put_ne A i i' j j' v h

/-- Two matrices that agree at every position are the same matrix. -/
theorem ext_entry {A B : Matrix α M N} (h : ∀ i j, A.entry i j = B.entry i j) : A = B := by
  have hd : A._data = B._data := by
    apply List.ext_getElem?
    intro n
    by_cases hn : n < M * N
    · have hN : 0 < N := by
        rcases Nat.eq_zero_or_pos N with h0 | h0
        · subst h0; simp at hn
        · exact h0
      have hi : n / N < M := Nat.div_lt_of_lt_mul (by rwa [Nat.mul_comm] at hn)
      have hj : n % N < N := Nat.mod_lt _ hN
      have e : n / N * N + n % N = n := Nat.div_add_mod' n N
      have hA := getElem?_flat A ⟨n / N, hi⟩ ⟨n % N, hj⟩
      have hB := getElem?_flat B ⟨n / N, hi⟩ ⟨n % N, hj⟩
      simp only [e] at hA hB
      rw [hA, hB, h]
    · have hA : A._data.length ≤ n := by rw [A.size_eq]; omega
      have hB : B._data.length ≤ n := by rw [B.size_eq]; omega
      rw [List.getElem?_eq_none hA, List.getElem?_eq_none hB]
  cases A; cases B; cases hd; rfl

theorem entry_ctor [Zero α] (i : Fin M) (j : Fin N) :
    (ctor : Matrix α M N).entry i j = 0 := by
  have h := getElem?_flat (ctor : Matrix α M N) i j
  have h2 : (ctor : Matrix α M N)._data[i.val * N + j.val]? = some 0 := by
    show (List.replicate (M * N) (0 : α))[i.val * N + j.val]? = some 0
    rw [List.getElem?_replicate, if_pos (flat_lt i.isLt j.isLt)]
  rw [h2] at h
  exact (Option.some.inj h).symm

theorem setZero_eq_ctor [Zero α] (A : Matrix α M N) : A.setZero = ctor := rfl

theorem entry_setZero [Zero α] (A : Matrix α M N) (i : Fin M) (j : Fin N) :
    A.setZero.entry i j = 0 := entry_ctor i j

/-! ## Loop rules -/

/-- A `for` loop whose body keeps an invariant, and never fails while it holds,
runs to completion and establishes the invariant at the loop bound. -/
theorem forRange_rule {σ : Type} (Inv : Nat → σ → Prop) (n : Nat)
    (body : Nat → σ → Option σ) (s0 : σ) (h0 : Inv 0 s0)
    (hstep : ∀ k s, k < n → Inv k s → ∃ s', body k s = some s' ∧ Inv (k + 1) s') :
    ∃ s', forRange n body s0 = some s' ∧ Inv n s' := by
  induction n with
  | zero => exact ⟨s0, rfl, h0⟩
  | succ n ih =>
    obtain ⟨s1, h1, hI1⟩ := ih (fun k s hk hI => hstep k s (Nat.lt_succ_of_lt hk) hI)
    obtain ⟨s2, h2, hI2⟩ := hstep n s1 (Nat.lt_succ_self n) hI1
    refine ⟨s2, ?_, hI2⟩
    unfold forRange at h1 ⊢
    rw [List.range_succ, List.foldlM_append, h1]
    simpa using h2

theorem put_entry_self (A : Matrix α M N) (i : Fin M) (j : Fin N) :
    A.put i j (A.entry i j) = A := by
  apply ext_entry
  intro i' j'
  rw [entry_put]
  split
  · next h => obtain ⟨rfl, rfl⟩ := h; rfl
  · rfl

theorem put_put (A : Matrix α M N) (i : Fin M) (j : Fin N) (v w : α) :
    (A.put i j v).put i j w = A.put i j w := by
  apply ext_entry
  intro i' j'
  rw [entry_put, entry_put A i i' j j' w]
  split
  · rfl
  · next h => rw [entry_put, if_neg h]

/-- Two nested loops `for i < M, for j < N` whose body stores `f i j` at the
position `(pr i j, pc i j)` of an `R × C` matrix, each position being visited at
most once: the loops run to completion, every visited position holds its `f i j`
and every other position is as it was. -/
theorem fill_rule {R C : Nat} (body : Nat → Nat → Matrix α R C → Option (Matrix α R C))
    (pr : Fin M → Fin N → Fin R) (pc : Fin M → Fin N → Fin C)
    (hinj : ∀ i j i' j', pr i j = pr i' j' → pc i j = pc i' j' → i = i' ∧ j = j')
    (f : Fin M → Fin N → α) (s0 : Matrix α R C)
    (hbody : ∀ (i : Fin M) (j : Fin N) (s : Matrix α R C),
      s.entry (pr i j) (pc i j) = s0.entry (pr i j) (pc i j) →
      body i.val j.val s = some (s.put (pr i j) (pc i j) (f i j))) :
    ∃ res, forRange M (fun i s => forRange N (fun j s => body i j s) s) s0 = some res ∧
      (∀ i j, res.entry (pr i j) (pc i j) = f i j) ∧
      (∀ r c, (∀ i j, ¬ (pr i j = r ∧ pc i j = c)) → res.entry r c = s0.entry r c) := by
  -- the invariant, for a set `D` of visited loop indices
  let Inv : (Fin M → Fin N → Prop) → Matrix α R C → Prop := fun D s =>
    (∀ i j, D i j → s.entry (pr i j) (pc i j) = f i j) ∧
    (∀ r c, (∀ i j, D i j → ¬ (pr i j = r ∧ pc i j = c)) → s.entry r c = s0.entry r c)
  have hout := forRange_rule (fun k s => Inv (fun i _ => i.val < k) s) M
    (fun i s => forRange N (fun j s => body i j s) s) s0
    ⟨fun i _ h => absurd h (Nat.not_lt_zero _), fun r c _ => rfl⟩
    (by
      intro k s hk hI
      have hin := forRange_rule
        (fun l s => Inv (fun i j => i.val < k ∨ (i.val = k ∧ j.val < l)) s) N
        (fun j s => body k j s) s
        ⟨fun i j h => hI.1 i j (h.resolve_right (fun h2 => Nat.not_lt_zero _ h2.2)),
         fun r c h => hI.2 r c (fun i j hd => h i j (Or.inl hd))⟩
        (by
          intro l t hl hIt
          have hfresh : t.entry (pr ⟨k, hk⟩ ⟨l, hl⟩) (pc ⟨k, hk⟩ ⟨l, hl⟩) =
              s0.entry (pr ⟨k, hk⟩ ⟨l, hl⟩) (pc ⟨k, hk⟩ ⟨l, hl⟩) := by
            apply hIt.2
            intro i j hd he
            have := hinj i j ⟨k, hk⟩ ⟨l, hl⟩ he.1 he.2
            have e1 : i.val = k := congrArg Fin.val this.1
            have e2 : j.val = l := congrArg Fin.val this.2
            omega
          refine ⟨_, hbody ⟨k, hk⟩ ⟨l, hl⟩ t hfresh, ?_, ?_⟩
          · intro i j hd
            by_cases hij : i = ⟨k, hk⟩ ∧ j = ⟨l, hl⟩
            · obtain ⟨rfl, rfl⟩ := hij
              exact entry_put_same _ _ _ _
            · rw [entry_put_ne]
              · apply hIt.1
                rcases hd with hd | ⟨hd1, hd2⟩
                · exact Or.inl hd
                · refine Or.inr ⟨hd1, ?_⟩
                  rcases Nat.lt_succ_iff_lt_or_eq.mp hd2 with h3 | h3
                  · exact h3
                  · exact absurd ⟨Fin.ext hd1, Fin.ext h3⟩ hij
              · intro he
                exact hij (hinj i j ⟨k, hk⟩ ⟨l, hl⟩ he.1 he.2)
          · intro r c hrc
            rw [entry_put_ne]
            · apply hIt.2
              intro i j hd
              apply hrc i j
              rcases hd with hd | ⟨hd1, hd2⟩
              · exact Or.inl hd
              · exact Or.inr ⟨hd1, Nat.lt_succ_of_lt hd2⟩
            · intro he
              exact hrc ⟨k, hk⟩ ⟨l, hl⟩ (Or.inr ⟨rfl, Nat.lt_succ_self l⟩) ⟨he.1.symm, he.2.symm⟩)
      obtain ⟨t, ht, hIt⟩ := hin
      refine ⟨t, ht, ?_, ?_⟩
      · intro i j hd
        apply hIt.1
        rcases Nat.lt_succ_iff_lt_or_eq.mp hd with h3 | h3
        · exact Or.inl h3
        · exact Or.inr ⟨h3, j.isLt⟩
      · intro r c hrc
        apply hIt.2
        intro i j hd
        apply hrc i j
        rcases hd with hd | ⟨hd1, _⟩
        · exact Nat.lt_succ_of_lt hd
        · exact hd1 ▸ Nat.lt_succ_self _)
  obtain ⟨res, hres, hI⟩ := hout
  exact ⟨res, hres, fun i j => hI.1 i j i.isLt, fun r c h => hI.2 r c (fun i j _ => h i j)⟩

/-- The loop nest of the element-wise operators: the body stores `f i j` at
`(i, j)`; the result holds `f i j` at every position. -/
theorem fill_same (body : Nat → Nat → Matrix α M N → Option (Matrix α M N))
    (f : Fin M → Fin N → α) (s0 : Matrix α M N)
    (hbody : ∀ (i : Fin M) (j : Fin N) (s : Matrix α M N),
      s.entry i j = s0.entry i j → body i.val j.val s = some (s.put i j (f i j))) :
    ∃ res, forRange M (fun i s => forRange N (fun j s => body i j s) s) s0 = some res ∧
      ∀ i j, res.entry i j = f i j := by
  obtain ⟨res, h1, h2, _⟩ := fill_rule body (fun i _ => i) (fun _ j => j)
    (fun _ _ _ _ h1 h2 => ⟨h1, h2⟩) f s0 hbody
  exact ⟨res, h1, h2⟩

/-! ## Matrix product -/

theorem foldl_take_finRange_succ {β : Type} (g : β → Fin N → β) (b : β) (l : Nat) (hl : l < N) :
    ((List.finRange N).take (l + 1)).foldl g b =
      g (((List.finRange N).take l).foldl g b) ⟨l, hl⟩ := by
  have hlen : l < (List.finRange N).length := by rw [List.length_finRange]; exact hl
  rw [List.take_succ, List.getElem?_eq_getElem hlen, List.getElem_finRange]
  simp [List.foldl_append]

/-- The innermost loop of `operator*`: started on a matrix whose `(i, k)` element
is zero, it leaves there the products `self(i, j) * other(j, k)` added up from
`j = 0` upwards, and changes nothing else. -/
theorem opMul_inner [Zero α] [Add α] [Mul α] (A : Matrix α M N) (B : Matrix α N P)
    (i : Fin M) (k : Fin P) (s : Matrix α M P) (hs : s.entry i k = 0) :
    forRange N (fun j res => do
        let a ← A.opCall i.val j
        let b ← B.opCall j k.val
        let r ← res.opCall i.val k.val
        res.opCallAssign i.val k.val (r + a * b)) s =
      some (s.put i k
        ((List.finRange N).foldl (fun acc j => acc + A.entry i j * B.entry j k) 0)) := by
  obtain ⟨t, ht, hI⟩ := forRange_rule
    (fun l t => t = s.put i k
      (((List.finRange N).take l).foldl (fun acc j => acc + A.entry i j * B.entry j k) 0)) N
    (fun j res => do
        let a ← A.opCall i.val j
        let b ← B.opCall j k.val
        let r ← res.opCall i.val k.val
        res.opCallAssign i.val k.val (r + a * b)) s
    (by
      show s = s.put i k 0
      rw [← hs, put_entry_self])
    (by
      intro l t hl hIt
      subst hIt
      refine ⟨_, ?_, rfl⟩
      show (do
        let a ← A.opCall i.val l
        let b ← B.opCall l k.val
        let r ← (s.put i k _).opCall i.val k.val
        (s.put i k _).opCallAssign i.val k.val (r + a * b)) = _
      rw [opCall_lt A i.isLt hl, opCall_lt B hl k.isLt, opCall_fin]
      simp only [Option.some_bind, Option.bind_eq_bind, opCallAssign_fin, entry_put_same,
        put_put]
      rw [foldl_take_finRange_succ _ _ l hl])
  rw [ht, hI]
  have hlen : (List.finRange N).length = N := List.length_finRange N
  rw [List.take_of_length_le (Nat.le_of_eq hlen)]

/-- What `operator*` computes, whatever the result matrix held when it was
declared: the function returns, and every element of the result is the sum
of the products along the shared dimension, added up from `j = 0` upwards
starting from zero. -/
theorem opMulFrom_spec [Zero α] [Add α] [Mul α] (fresh : Matrix α M P)
    (A : Matrix α M N) (B : Matrix α N P) :
    ∃ C, opMulFrom fresh A B = some C ∧ ∀ i k, C.entry i k =
      (List.finRange N).foldl (fun acc j => acc + A.entry i j * B.entry j k) 0 := by
  exact fill_same
    (fun i k s => forRange N (fun j res => do
        let a ← A.opCall i j
        let b ← B.opCall j k
        let r ← res.opCall i k
        res.opCallAssign i k (r + a * b)) s)
    (fun i k => (List.finRange N).foldl (fun acc j => acc + A.entry i j * B.entry j k) 0)
    fresh.setZero
    (fun i k s hs => opMul_inner A B i k s (by rw [hs, entry_setZero]))

/-! ## Identity -/

theorem takeWhile_range' (N : Nat) : ∀ (n s : Nat),
    (List.range' s n).takeWhile (fun i => decide (i < N)) = List.range' s (min n (N - s))
  | 0, s => by simp
  | n + 1, s => by
    by_cases h : s < N
    · have e : min (n + 1) (N - s) = min n (N - (s + 1)) + 1 := by omega
      rw [e, List.range'_succ, List.range'_succ, List.takeWhile_cons,
        if_pos (decide_eq_true h), takeWhile_range' N n (s + 1)]
    · have e : min (n + 1) (N - s) = 0 := by omega
      rw [e, List.range'_succ, List.takeWhile_cons, if_neg (by simpa using h)]
      rfl

/-- The loop `for (i = 0; i < m and i < n; i++)` runs over `0 .. min m n - 1`. -/
theorem forRange2_eq {σ : Type} (m n : Nat) (body : Nat → σ → Option σ) (s : σ) :
    forRange2 m n body s = forRange (min m n) body s := by
  unfold forRange2 forRange
  rw [List.range_eq_range', takeWhile_range' n m 0, List.range_eq_range', Nat.sub_zero]

theorem setIdentity_spec [Zero α] [One α] (X : Matrix α M N) :
    ∃ I, X.setIdentity = some I ∧
      ∀ i j, I.entry i j = if i.val = j.val then 1 else 0 := by
  unfold setIdentity
  rw [forRange2_eq]
  obtain ⟨I, hI, hInv⟩ := forRange_rule
    (fun k (s : Matrix α M N) =>
      ∀ i j, s.entry i j = if i.val = j.val ∧ i.val < k then 1 else 0)
    (min M N) (fun i s => s.opCallAssign i i 1) X.setZero
    (by
      intro i j
      rw [entry_setZero, if_neg (fun h => Nat.not_lt_zero _ h.2)])
    (by
      intro k s hk hs
      have hkM : k < M := Nat.lt_of_lt_of_le hk (Nat.min_le_left M N)
      have hkN : k < N := Nat.lt_of_lt_of_le hk (Nat.min_le_right M N)
      refine ⟨_, opCallAssign_lt s hkM hkN 1, ?_⟩
      intro i j
      rw [entry_put, hs]
      by_cases h : i = ⟨k, hkM⟩ ∧ j = ⟨k, hkN⟩
      · obtain ⟨rfl, rfl⟩ := h
        simp
      · rw [if_neg h]
        have h' : ¬ (i.val = k ∧ j.val = k) := fun e => h ⟨Fin.ext e.1, Fin.ext e.2⟩
        by_cases e1 : i.val = j.val
        · have : i.val ≠ k := fun e => h' ⟨e, e1 ▸ e⟩
          have e2 : (i.val < k + 1) = (i.val < k) := by
            apply propext; constructor <;> intro <;> omega
          simp only [e1, true_and] at e2 ⊢
          simp only [e2]
        · simp [e1])
  refine ⟨I, hI, ?_⟩
  intro i j
  rw [hInv]
  by_cases e : i.val = j.val
  · have : i.val < min M N := by
      have := i.isLt; have := j.isLt; omega
    simp [e, this]
    omega
  · simp [e]

/-! ## Comparison -/

/-- A loop whose body either goes on or returns the fixed value `v`, the latter
exactly at the indices satisfying `c`: it returns `v` exactly when some index
of the list satisfies `c`, and otherwise runs to its end. -/
theorem forReturn_spec {ρ : Type} (v : ρ) (c : Nat → Prop) (body : Nat → Option (Option ρ)) :
    ∀ (l : List Nat),
    (∀ k ∈ l, ∃ b : Bool, body k = some (if b then some v else none) ∧ (b = true ↔ c k)) →
    ∃ b : Bool, forReturn l body = some (if b then some v else none) ∧
      (b = true ↔ ∃ k ∈ l, c k)
  | [], _ => ⟨false, rfl, by simp⟩
  | i :: is, h => by
    obtain ⟨b, hb, hc⟩ := h i (List.mem_cons_self i is)
    cases b with
    | true =>
      refine ⟨true, ?_, by simpa using Or.inl (hc.mp rfl)⟩
      unfold forReturn
      rw [hb]
      rfl
    | false =>
      obtain ⟨b', hb', hc'⟩ := forReturn_spec v c body is
        (fun k hk => h k (List.mem_cons_of_mem i hk))
      refine ⟨b', ?_, ?_⟩
      · unfold forReturn
        rw [hb]
        exact hb'
      · rw [hc']
        have hn : ¬ c i := fun hci => Bool.false_ne_true (hc.mpr hci)
        simp [hn]

/-- What `operator==` computes: it returns, and the value is `true` exactly when
no position has `self(i, j) != other(i, j)`. -/
theorem opEq_spec [BEq α] (A B : Matrix α M N) :
    ∃ b : Bool, opEq A B = some b ∧
      (b = true ↔ ∀ i j, (A.entry i j != B.entry i j) = false) := by
  have hin : ∀ i ∈ List.range M, ∃ b : Bool,
      forReturn (List.range N) (fun j => do
        let a ← A.opCall i j
        let b ← B.opCall i j
        if a != b then pure (some false) else pure none) =
        some (if b then some false else none) ∧
      (b = true ↔ ∃ (hi : i < M), ∃ j : Fin N,
        (A.entry ⟨i, hi⟩ j != B.entry ⟨i, hi⟩ j) = true) := by
    intro i hi
    have hiM : i < M := List.mem_range.mp hi
    obtain ⟨b, hb, hc⟩ := forReturn_spec false
      (fun j => ∃ (hj : j < N), (A.entry ⟨i, hiM⟩ ⟨j, hj⟩ != B.entry ⟨i, hiM⟩ ⟨j, hj⟩) = true)
      (fun j => do
        let a ← A.opCall i j
        let b ← B.opCall i j
        if a != b then pure (some false) else pure none)
      (List.range N)
      (by
        intro j hj
        have hjN : j < N := List.mem_range.mp hj
        refine ⟨A.entry ⟨i, hiM⟩ ⟨j, hjN⟩ != B.entry ⟨i, hiM⟩ ⟨j, hjN⟩, ?_, ?_⟩
        · show (do
            let a ← A.opCall i j
            let b ← B.opCall i j
            if a != b then pure (some false) else pure none) = _
          rw [opCall_lt A hiM hjN, opCall_lt B hiM hjN]
          simp only [Option.bind_eq_bind, Option.some_bind]
          split <;> rfl
        · exact ⟨fun h => ⟨hjN, h⟩, fun ⟨_, h⟩ => h⟩)
    refine ⟨b, hb, hc.trans ?_⟩
    constructor
    · rintro ⟨j, hj, hjN, h⟩
      exact ⟨hiM, ⟨j, hjN⟩, h⟩
    · rintro ⟨_, j, h⟩
      exact ⟨j.val, List.mem_range.mpr j.isLt, j.isLt, h⟩
  obtain ⟨b, hb, hc⟩ := forReturn_spec false _ _ (List.range M) hin
  refine ⟨!b, ?_, ?_⟩
  · unfold opEq
    rw [hb]
    cases b <;> rfl
  · have hc' : b = true ↔ ∃ i j, (A.entry i j != B.entry i j) = true := by
      rw [hc]
      constructor
      · rintro ⟨i, _, hi, j, h⟩
        exact ⟨⟨i, hi⟩, j, h⟩
      · rintro ⟨i, j, h⟩
        exact ⟨i.val, List.mem_range.mpr i.isLt, i.isLt, j, h⟩
    constructor
    · intro hb i j
      cases hx : (A.entry i j != B.entry i j)
      · rfl
      · have := hc'.mpr ⟨i, j, hx⟩
        rw [this] at hb
        exact absurd hb (by decide)
    · intro hall
      cases hbv : b
      · rfl
      · obtain ⟨i, j, h⟩ := hc'.mp hbv
        rw [hall i j] at h
        exact absurd h (by decide)

/-- For any scalar equality, `operator==` returns `true` exactly when every
position compares equal. -/
theorem opEq_true_iff_beq [BEq α] (A B : Matrix α M N) :
    opEq A B = some true ↔ ∀ i j, (A.entry i j == B.entry i j) = true := by
  obtain ⟨b, hb, hc⟩ := opEq_spec A B
  rw [hb]
  have h1 : some b = some true ↔ b = true :=
    ⟨fun h => Option.some.inj h, fun h => by rw [h]⟩
  rw [h1, hc]
  constructor
  · intro h i j
    have := h i j
    simpa [bne] using this
  · intro h i j
    simp [bne, h i j]

/-- With a lawful scalar equality, `operator==` returns `true` exactly on equal
matrices. -/
theorem opEq_eq_true_iff [BEq α] [LawfulBEq α] (A B : Matrix α M N) :
    opEq A B = some true ↔ A = B := by
  obtain ⟨b, hb, hc⟩ := opEq_spec A B
  rw [hb]
  constructor
  · intro h
    have hbt : b = true := Option.some.inj h
    apply ext_entry
    intro i j
    have := hc.mp hbt i j
    simpa using this
  · intro h
    subst h
    have : b = true := hc.mpr (fun i j => by simp)
    rw [this]

/-! ## Element-wise operators and transpose -/

theorem opAdd_spec [Zero α] [Add α] (A B : Matrix α M N) :
    ∃ C, opAdd A B = some C ∧ ∀ i j, C.entry i j = A.entry i j + B.entry i j := by
  exact fill_same
    (fun i j res => do
      let a ← A.opCall i j
      let b ← B.opCall i j
      res.opCallAssign i j (a + b))
    (fun i j => A.entry i j + B.entry i j) ctor
    (fun i j s _ => by
      simp only [opCall_fin, opCallAssign_fin, Option.bind_eq_bind, Option.some_bind])

theorem opSub_spec [Zero α] [Sub α] (A B : Matrix α M N) :
    ∃ C, opSub A B = some C ∧ ∀ i j, C.entry i j = A.entry i j - B.entry i j := by
  exact fill_same
    (fun i j res => do
      let a ← A.opCall i j
      let b ← B.opCall i j
      res.opCallAssign i j (a - b))
    (fun i j => A.entry i j - B.entry i j) ctor
    (fun i j s _ => by
      simp only [opCall_fin, opCallAssign_fin, Option.bind_eq_bind, Option.some_bind])

theorem opMulScalar_spec [Zero α] [Mul α] (A : Matrix α M N) (scalar : α) :
    ∃ C, opMulScalar A scalar = some C ∧ ∀ i j, C.entry i j = A.entry i j * scalar := by
  exact fill_same
    (fun i j res => do
      let a ← A.opCall i j
      res.opCallAssign i j (a * scalar))
    (fun i j => A.entry i j * scalar) ctor
    (fun i j s _ => by
      simp only [opCall_fin, opCallAssign_fin, Option.bind_eq_bind, Option.some_bind])

theorem opMulAssignScalar_spec [Mul α] (A : Matrix α M N) (scalar : α) :
    ∃ C, opMulAssignScalar A scalar = some C ∧
      ∀ i j, C.entry i j = A.entry i j * scalar := by
  exact fill_same
    (fun i j self => do
      let a ← self.opCall i j
      self.opCallAssign i j (a * scalar))
    (fun i j => A.entry i j * scalar) A
    (fun i j s hs => by
      simp only [opCall_fin, opCallAssign_fin, Option.bind_eq_bind, Option.some_bind, hs])

theorem transpose_spec [Zero α] (A : Matrix α M N) :
    ∃ T, A.transpose = some T ∧ ∀ i j, T.entry j i = A.entry i j := by
  obtain ⟨T, h1, h2, _⟩ := fill_rule
    (fun i j (res : Matrix α N M) => do
      let a ← A.opCall i j
      res.opCallAssign j i a)
    (fun _ j => j) (fun i _ => i) (fun _ _ _ _ h1 h2 => ⟨h2, h1⟩)
    (fun i j => A.entry i j) ctor
    (fun i j s _ => by
      simp only [opCall_fin, opCallAssign_fin, Option.bind_eq_bind, Option.some_bind])
  exact ⟨T, h1, h2⟩

/-! ## Sums over an exact scalar type -/

/-- In a commutative additive monoid the loop's running total is the sum. -/
theorem foldl_finRange_eq_sum {β : Type} [AddCommMonoid β] (g : Fin N → β) :
    (List.finRange N).foldl (fun acc j => acc + g j) 0 = ∑ j, g j := by
  rw [Fin.sum_univ_def, List.sum_eq_foldl, List.foldl_map]

theorem opMul_spec_sum [Semiring α] (A : Matrix α M N) (B : Matrix α N P) :
    ∃ C, opMul A B = some C ∧ ∀ i k, C.entry i k = ∑ j, A.entry i j * B.entry j k := by
  obtain ⟨C, h1, h2⟩ := opMulFrom_spec (ctor : Matrix α M P) A B
  refine ⟨C, h1, ?_⟩
  intro i k
  rw [h2, foldl_finRange_eq_sum]

/-! ## Sample runs

The member functions evaluated on small integer matrices. -/

theorem opMul_sample :
    opMul (⟨[1, 2, 3, 4, 5, 6], rfl⟩ : Matrix Int 2 3) (⟨[1, 0, 0, 1, 1, 1], rfl⟩ : Matrix Int 3 2)
      = some ⟨[4, 5, 10, 11], rfl⟩ := by decide

theorem opMul_sample_empty :
    opMul (⟨[], rfl⟩ : Matrix Int 2 0) (⟨[], rfl⟩ : Matrix Int 0 2)
      = some ⟨[0, 0, 0, 0], rfl⟩ := by decide

theorem setIdentity_sample_wide :
    (⟨[9, 9, 9, 9, 9, 9], rfl⟩ : Matrix Int 2 3).setIdentity
      = some ⟨[1, 0, 0, 0, 1, 0], rfl⟩ := by decide

theorem setIdentity_sample_tall :
    (⟨[9, 9, 9, 9, 9, 9], rfl⟩ : Matrix Int 3 2).setIdentity
      = some ⟨[1, 0, 0, 1, 0, 0], rfl⟩ := by decide

theorem transpose_sample :
    (⟨[1, 2, 3, 4, 5, 6], rfl⟩ : Matrix Int 2 3).transpose
      = some ⟨[1, 4, 2, 5, 3, 6], rfl⟩ := by decide

theorem opEq_sample :
    opEq (⟨[1, 2, 3, 4], rfl⟩ : Matrix Int 2 2) ⟨[1, 2, 3, 4], rfl⟩ = some true ∧
    opEq (⟨[1, 2, 3, 4], rfl⟩ : Matrix Int 2 2) ⟨[1, 2, 3, 5], rfl⟩ = some false ∧
    opEq (⟨[], rfl⟩ : Matrix Int 0 2) ⟨[], rfl⟩ = some true := by decide

theorem opMulAssignScalar_sample :
    opMulAssignScalar (⟨[1, 2, 3, 4, 5, 6], rfl⟩ : Matrix Int 3 2) 3
      = some ⟨[3, 6, 9, 12, 15, 18], rfl⟩ := by decide

theorem opCall_sample_out_of_range :
    (⟨[1, 2, 3, 4, 5, 6], rfl⟩ : Matrix Int 2 3).opCall 0 3 = none ∧
    (⟨[1, 2, 3, 4, 5, 6], rfl⟩ : Matrix Int 2 3).opCall 2 0 = none ∧
    (⟨[1, 2, 3, 4, 5, 6], rfl⟩ : Matrix Int 2 3).opCall 1 2 = some 6 := by decide

/-! ## The contract of the matrix product, identity, transpose and comparison -/

/-- C1: for every `M × N` matrix `A` and `N × P` matrix `B` (any `M`, `N`, `P`, also
`N = 0`), `operator*` returns a matrix `C` with
`C(i, k) = Σ_{j < N} A(i, j) * B(j, k)` for every `i < M`, `k < P`: the products
are added up from `j = 0` upwards starting from the scalar zero.  This holds
for the function as written (`opMul`) and whatever the result matrix held
when it was declared (`opMulFrom fresh`), and needs no law of the scalar
arithmetic. -/
theorem opMul_entry_eq_sum [Zero α] [Add α] [Mul α] (A : Matrix α M N) (B : Matrix α N P) :
    (∀ fresh : Matrix α M P, ∃ C, opMulFrom fresh A B = some C ∧
      ∀ (i : Fin M) (k : Fin P), C.opCall i k = some
        ((List.finRange N).foldl (fun acc j => acc + A.entry i j * B.entry j k) 0)) ∧
    (∃ C, opMul A B = some C ∧
      ∀ (i : Fin M) (k : Fin P), C.opCall i k = some
        ((List.finRange N).foldl (fun acc j => acc + A.entry i j * B.entry j k) 0)) := by
  have h : ∀ fresh : Matrix α M P, ∃ C, opMulFrom fresh A B = some C ∧
      ∀ (i : Fin M) (k : Fin P), C.opCall i k = some
        ((List.finRange N).foldl (fun acc j => acc + A.entry i j * B.entry j k) 0) := by
    intro fresh
    obtain ⟨C, h1, h2⟩ := opMulFrom_spec fresh A B
    exact ⟨C, h1, fun i k => by rw [opCall_fin, h2]⟩
  exact ⟨h, h ctor⟩

/-- C2: over an exact scalar type (a semiring with a lawful equality test), for
every `M × M` matrix `A` and `I` the matrix `setIdentity()` produces (from any
prior content `X`), `A * I == A` and `I * A == A` under `operator==`. -/
theorem opMul_setIdentity_eq_self [Semiring α] [BEq α] [LawfulBEq α] (A X : Matrix α M M) :
    ∃ I AI IA, X.setIdentity = some I ∧ opMul A I = some AI ∧ opMul I A = some IA ∧
      opEq AI A = some true ∧ opEq IA A = some true := by
  obtain ⟨I, hI, hIe⟩ := setIdentity_spec X
  obtain ⟨AI, hAI, hAIe⟩ := opMul_spec_sum A I
  obtain ⟨IA, hIA, hIAe⟩ := opMul_spec_sum I A
  refine ⟨I, AI, IA, hI, hAI, hIA, ?_, ?_⟩
  · rw [opEq_eq_true_iff]
    apply ext_entry
    intro i k
    rw [hAIe]
    simp only [hIe, Fin.val_inj, mul_ite, mul_one, mul_zero]
    rw [Finset.sum_ite_eq' Finset.univ k]
    simp
  · rw [opEq_eq_true_iff]
    apply ext_entry
    intro i k
    rw [hIAe]
    simp only [hIe, Fin.val_inj, ite_mul, one_mul, zero_mul]
    rw [Finset.sum_ite_eq Finset.univ i]
    simp

/-- A concrete instance of C2 on 2 × 2 integer matrices. -/
theorem opMul_setIdentity_eq_self_witness :
    ∃ I AI IA, (⟨[7, 8, 9, 10], rfl⟩ : Matrix Int 2 2).setIdentity = some I ∧
      opMul (⟨[1, 2, 3, 4], rfl⟩ : Matrix Int 2 2) I = some AI ∧
      opMul I (⟨[1, 2, 3, 4], rfl⟩ : Matrix Int 2 2) = some IA ∧
      opEq AI (⟨[1, 2, 3, 4], rfl⟩ : Matrix Int 2 2) = some true ∧
      opEq IA (⟨[1, 2, 3, 4], rfl⟩ : Matrix Int 2 2) = some true :=
  opMul_setIdentity_eq_self (⟨[1, 2, 3, 4], rfl⟩ : Matrix Int 2 2) ⟨[7, 8, 9, 10], rfl⟩

/-- C3: over an exact scalar type (a semiring), for every `M × N` matrix `A`,
`N × P` matrix `B` and `P × Q` matrix `C`, the four products return and
`(A * B) * C` is the same matrix as `A * (B * C)`, element for element. -/
theorem opMul_assoc [Semiring α] (A : Matrix α M N) (B : Matrix α N P) (C : Matrix α P Q) :
    ∃ AB L BC R, opMul A B = some AB ∧ opMul AB C = some L ∧
      opMul B C = some BC ∧ opMul A BC = some R ∧
      L = R ∧ ∀ (i : Fin M) (l : Fin Q), L.opCall i l = R.opCall i l := by
  obtain ⟨AB, hAB, eAB⟩ := opMul_spec_sum A B
  obtain ⟨L, hL, eL⟩ := opMul_spec_sum AB C
  obtain ⟨BC, hBC, eBC⟩ := opMul_spec_sum B C
  obtain ⟨R, hR, eR⟩ := opMul_spec_sum A BC
  have hLR : L = R := by
    apply ext_entry
    intro i l
    rw [eL, eR]
    simp only [eAB, eBC, Finset.sum_mul, Finset.mul_sum, mul_assoc]
    exact Finset.sum_comm
  exact ⟨AB, L, BC, R, hAB, hL, hBC, hR, hLR, fun i l => by rw [hLR]⟩

/-- C4: for every `M × N` matrix `A`, `transpose()` returns an `N × M` matrix `T`
with `T(j, i) = A(i, j)` for every `i < M`, `j < N` (every position of `T` is of
that form), and `T()` returns the same matrix. -/
theorem transpose_entry [Zero α] (A : Matrix α M N) :
    ∃ T : Matrix α N M, A.transpose = some T ∧
      (∀ (i : Fin M) (j : Fin N), T.opCall j i = some (A.entry i j)) ∧
      A.T = some T := by
  obtain ⟨T, h1, h2⟩ := transpose_spec A
  exact ⟨T, h1, fun i j => by rw [opCall_fin, h2], h1⟩

/-- C5 (as amended): for every `M × N` matrix `A` (square or not) over any scalar
type, both transpositions return and `transpose(transpose(A))` is `A` itself,
element for element.  `operator==` on the two returns `true` exactly when every
element of `A` compares equal to itself; so `transpose(transpose(A)) == A`
holds for every scalar type whose equality is reflexive. -/
theorem transpose_transpose [Zero α] [BEq α] (A : Matrix α M N) :
    ∃ (T : Matrix α N M) (TT : Matrix α M N), A.transpose = some T ∧
      T.transpose = some TT ∧ TT = A ∧
      (∀ (i : Fin M) (j : Fin N), TT.opCall i j = A.opCall i j) ∧
      (opEq TT A = some true ↔
        ∀ (i : Fin M) (j : Fin N), (A.entry i j == A.entry i j) = true) ∧
      ((∀ a : α, (a == a) = true) → opEq TT A = some true) := by
  obtain ⟨T, h1, h2⟩ := transpose_spec A
  obtain ⟨TT, h3, h4⟩ := transpose_spec T
  have e : TT = A := ext_entry (fun i j => by rw [h4, h2])
  have hiff : opEq TT A = some true ↔
      ∀ (i : Fin M) (j : Fin N), (A.entry i j == A.entry i j) = true := by
    rw [e]
    exact opEq_true_iff_beq A A
  exact ⟨T, TT, h1, h3, e, fun i j => by rw [e], hiff,
    fun hrefl => hiff.mpr (fun i j => hrefl _)⟩

/-- C5 fails on a matrix that holds a not-a-number: on the 1 × 2 matrix
`[NaN, 2]` both transpositions return, the second gives back `[NaN, 2]`, and
`operator==` of that with the original returns `false`, since `NaN != NaN`. -/
theorem double_transpose_nan_counterexample :
    (⟨[FloatFrag.nan, FloatFrag.ofInt 2], rfl⟩ : Matrix FloatFrag 1 2).transpose
      = some ⟨[FloatFrag.nan, FloatFrag.ofInt 2], rfl⟩ ∧
    (⟨[FloatFrag.nan, FloatFrag.ofInt 2], rfl⟩ : Matrix FloatFrag 2 1).transpose
      = some ⟨[FloatFrag.nan, FloatFrag.ofInt 2], rfl⟩ ∧
    opEq (⟨[FloatFrag.nan, FloatFrag.ofInt 2], rfl⟩ : Matrix FloatFrag 1 2)
      ⟨[FloatFrag.nan, FloatFrag.ofInt 2], rfl⟩ = some false ∧
    ¬ (∃ (T : Matrix FloatFrag 2 1) (TT : Matrix FloatFrag 1 2),
        (⟨[FloatFrag.nan, FloatFrag.ofInt 2], rfl⟩ : Matrix FloatFrag 1 2).transpose = some T ∧
        T.transpose = some TT ∧
        opEq TT (⟨[FloatFrag.nan, FloatFrag.ofInt 2], rfl⟩ : Matrix FloatFrag 1 2)
          = some true) := by
  have e1 : (⟨[FloatFrag.nan, FloatFrag.ofInt 2], rfl⟩ : Matrix FloatFrag 1 2).transpose
      = some ⟨[FloatFrag.nan, FloatFrag.ofInt 2], rfl⟩ := by decide
  have e2 : (⟨[FloatFrag.nan, FloatFrag.ofInt 2], rfl⟩ : Matrix FloatFrag 2 1).transpose
      = some ⟨[FloatFrag.nan, FloatFrag.ofInt 2], rfl⟩ := by decide
  have e3 : opEq (⟨[FloatFrag.nan, FloatFrag.ofInt 2], rfl⟩ : Matrix FloatFrag 1 2)
      ⟨[FloatFrag.nan, FloatFrag.ofInt 2], rfl⟩ = some false := by decide
  refine ⟨e1, e2, e3, ?_⟩
  rintro ⟨T, TT, h1, h2, h3⟩
  rw [e1] at h1
  have hT := Option.some.inj h1
  subst hT
  rw [e2] at h2
  have hTT := Option.some.inj h2
  subst hTT
  rw [e3] at h3
  exact absurd h3 (by decide)

/-- C6: for every `M` and `N` (square or not) and every prior content `X`,
`setIdentity()` returns without touching an element outside the matrix, the
loop that stores the ones runs over exactly `i = 0 .. min(M, N) - 1`, and
afterwards the element `(i, j)` is `1` when `i = j` and `0` otherwise, for all
`i < M`, `j < N`. -/
theorem setIdentity_entries [Zero α] [One α] (X : Matrix α M N) :
    ∃ I, X.setIdentity = some I ∧
      X.setIdentity = forRange (min M N) (fun i s => s.opCallAssign i i 1) X.setZero ∧
      ∀ (i : Fin M) (j : Fin N), I.opCall i j = some (if i.val = j.val then 1 else 0) := by
  obtain ⟨I, h1, h2⟩ := setIdentity_spec X
  exact ⟨I, h1, forRange2_eq M N _ _, fun i j => by rw [opCall_fin, h2]⟩

/-- C7: for every pair of `M × N` matrices `A`, `B`, `operator+` returns `C` with
`C(i, j) = A(i, j) + B(i, j)` and `operator-` returns `D` with
`D(i, j) = A(i, j) - B(i, j)`, for every `i < M`, `j < N`. -/
theorem opAdd_opSub_entries [Zero α] [Add α] [Sub α] (A B : Matrix α M N) :
    ∃ C D, opAdd A B = some C ∧ opSub A B = some D ∧
      ∀ (i : Fin M) (j : Fin N),
        C.opCall i j = some (A.entry i j + B.entry i j) ∧
        D.opCall i j = some (A.entry i j - B.entry i j) := by
  obtain ⟨C, h1, h2⟩ := opAdd_spec A B
  obtain ⟨D, h3, h4⟩ := opSub_spec A B
  exact ⟨C, D, h1, h3, fun i j => ⟨by rw [opCall_fin, h2], by rw [opCall_fin, h4]⟩⟩

/-- C8 (as amended): for every `M × N` matrix `A` over any scalar type: the
default constructed matrix and `setZero()` of any matrix `X` hold the scalar
zero at every position; with either as `Z`, `A + Z` returns and holds
`A(i, j) + 0` at every position, and `A + Z == A` under `operator==` returns
`true` exactly when `A(i, j) + 0` compares equal to `A(i, j)` at every
position; so `A + Z == A` holds for every scalar type where `a + 0 == a` for
every `a`. -/
theorem opAdd_zero [Zero α] [Add α] [BEq α] (A X : Matrix α M N) :
    (∀ (i : Fin M) (j : Fin N), (ctor : Matrix α M N).opCall i j = some 0) ∧
    (∀ (i : Fin M) (j : Fin N), X.setZero.opCall i j = some 0) ∧
    ∃ S S', opAdd A ctor = some S ∧ opAdd A X.setZero = some S' ∧
      (∀ (i : Fin M) (j : Fin N), S.opCall i j = some (A.entry i j + 0) ∧
        S'.opCall i j = some (A.entry i j + 0)) ∧
      (opEq S A = some true ↔
        ∀ (i : Fin M) (j : Fin N), (A.entry i j + 0 == A.entry i j) = true) ∧
      (opEq S' A = some true ↔
        ∀ (i : Fin M) (j : Fin N), (A.entry i j + 0 == A.entry i j) = true) ∧
      ((∀ a : α, (a + 0 == a) = true) → opEq S A = some true ∧ opEq S' A = some true) := by
  obtain ⟨S, h1, h2⟩ := opAdd_spec A (ctor : Matrix α M N)
  have hS : ∀ (i : Fin M) (j : Fin N), S.entry i j = A.entry i j + 0 :=
    fun i j => by rw [h2, entry_ctor]
  have hiff : opEq S A = some true ↔
      ∀ (i : Fin M) (j : Fin N), (A.entry i j + 0 == A.entry i j) = true := by
    rw [opEq_true_iff_beq]
    constructor
    · intro h i j
      rw [← hS]
      exact h i j
    · intro h i j
      rw [hS]
      exact h i j
  refine ⟨fun i j => by rw [opCall_fin, entry_ctor],
    fun i j => by rw [opCall_fin, entry_setZero], S, S, h1, h1, ?_, hiff, hiff, ?_⟩
  · intro i j
    rw [opCall_fin, hS]
    exact ⟨rfl, rfl⟩
  · intro hz
    have := hiff.mpr (fun i j => hz _)
    exact ⟨this, this⟩

/-- C8 fails on a matrix that holds a not-a-number: on the 1 × 2 matrix
`[NaN, 2]`, with `Z` default constructed or obtained by `setZero()` on `[5, 6]`,
`A + Z` is `[NaN, 2]` and `operator==` of that with `A` returns `false`. -/
theorem add_zero_nan_counterexample :
    (ctor : Matrix FloatFrag 1 2) = ⟨[FloatFrag.ofInt 0, FloatFrag.ofInt 0], rfl⟩ ∧
    (⟨[FloatFrag.ofInt 5, FloatFrag.ofInt 6], rfl⟩ : Matrix FloatFrag 1 2).setZero
      = ⟨[FloatFrag.ofInt 0, FloatFrag.ofInt 0], rfl⟩ ∧
    opAdd (⟨[FloatFrag.nan, FloatFrag.ofInt 2], rfl⟩ : Matrix FloatFrag 1 2)
      ⟨[FloatFrag.ofInt 0, FloatFrag.ofInt 0], rfl⟩
      = some ⟨[FloatFrag.nan, FloatFrag.ofInt 2], rfl⟩ ∧
    opEq (⟨[FloatFrag.nan, FloatFrag.ofInt 2], rfl⟩ : Matrix FloatFrag 1 2)
      ⟨[FloatFrag.nan, FloatFrag.ofInt 2], rfl⟩ = some false ∧
    ¬ (∃ S, opAdd (⟨[FloatFrag.nan, FloatFrag.ofInt 2], rfl⟩ : Matrix FloatFrag 1 2) ctor
          = some S ∧
        opEq S (⟨[FloatFrag.nan, FloatFrag.ofInt 2], rfl⟩ : Matrix FloatFrag 1 2)
          = some true) ∧
    ¬ (∃ S, opAdd (⟨[FloatFrag.nan, FloatFrag.ofInt 2], rfl⟩ : Matrix FloatFrag 1 2)
          (⟨[FloatFrag.ofInt 5, FloatFrag.ofInt 6], rfl⟩ : Matrix FloatFrag 1 2).setZero
          = some S ∧
        opEq S (⟨[FloatFrag.nan, FloatFrag.ofInt 2], rfl⟩ : Matrix FloatFrag 1 2)
          = some true) := by
  have e0 : (ctor : Matrix FloatFrag 1 2) = ⟨[FloatFrag.ofInt 0, FloatFrag.ofInt 0], rfl⟩ :=
    rfl
  have e1 : (⟨[FloatFrag.ofInt 5, FloatFrag.ofInt 6], rfl⟩ : Matrix FloatFrag 1 2).setZero
      = ⟨[FloatFrag.ofInt 0, FloatFrag.ofInt 0], rfl⟩ := rfl
  have e2 : opAdd (⟨[FloatFrag.nan, FloatFrag.ofInt 2], rfl⟩ : Matrix FloatFrag 1 2)
      ⟨[FloatFrag.ofInt 0, FloatFrag.ofInt 0], rfl⟩
      = some ⟨[FloatFrag.nan, FloatFrag.ofInt 2], rfl⟩ := by decide
  have e3 : opEq (⟨[FloatFrag.nan, FloatFrag.ofInt 2], rfl⟩ : Matrix FloatFrag 1 2)
      ⟨[FloatFrag.nan, FloatFrag.ofInt 2], rfl⟩ = some false := by decide
  refine ⟨e0, e1, e2, e3, ?_, ?_⟩
  · rintro ⟨S, h1, h2⟩
    rw [e0, e2] at h1
    have hS := Option.some.inj h1
    subst hS
    rw [e3] at h2
    exact absurd h2 (by decide)
  · rintro ⟨S, h1, h2⟩
    rw [e1, e2] at h1
    have hS := Option.some.inj h1
    subst hS
    rw [e3] at h2
    exact absurd h2 (by decide)

/-- C9: for every pair of `M × N` matrices `A`, `B`, `operator==` returns, and it
returns `true` if and only if `A(i, j)` equals `B(i, j)` under the scalar
type's equality for every `i < M`, `j < N` (so always `true` when `M = 0` or
`N = 0`, and `false` as soon as one position differs). -/
theorem opEq_iff [BEq α] (A B : Matrix α M N) :
    ∃ b : Bool, opEq A B = some b ∧
      (b = true ↔ ∀ (i : Fin M) (j : Fin N), (A.entry i j == B.entry i j) = true) ∧
      (b = false ↔ ∃ (i : Fin M) (j : Fin N), (A.entry i j == B.entry i j) = false) ∧
      (M = 0 ∨ N = 0 → b = true) := by
  obtain ⟨b, h1, h2⟩ := opEq_spec A B
  have h3 : b = true ↔ ∀ (i : Fin M) (j : Fin N), (A.entry i j == B.entry i j) = true := by
    refine h2.trans ?_
    constructor
    · intro h i j
      have := h i j
      simpa [bne] using this
    · intro h i j
      simp [bne, h i j]
  refine ⟨b, h1, h3, ?_, ?_⟩
  · constructor
    · intro hb
      by_contra hne
      have : b = true := h3.mpr (fun i j => by
        cases hx : (A.entry i j == B.entry i j)
        · exact absurd ⟨i, j, hx⟩ hne
        · rfl)
      rw [hb] at this
      exact absurd this (by decide)
    · rintro ⟨i, j, hx⟩
      cases hb : b
      · rfl
      · have := h3.mp hb i j
        rw [hx] at this
        exact absurd this (by decide)
  · intro h0
    apply h3.mpr
    intro i j
    rcases h0 with h0 | h0
    · have := i.isLt
      omega
    · have := j.isLt
      omega

/-- C10: for every pair of `M × N` matrices `X`, `Y` and scalar `s`: `X += Y`
leaves in the receiver what `X + Y` returns, `X -= Y` what `X - Y` returns, and
the in-place loop of the scalar `X *= s` what the non-mutating `X * s`
returns. -/
theorem compound_assignment_eq [Zero α] [Add α] [Sub α] [Mul α] (X Y : Matrix α M N) (s : α) :
    (∃ R, opAddAssign X Y = some R ∧ opAdd X Y = some R) ∧
    (∃ R, opSubAssign X Y = some R ∧ opSub X Y = some R) ∧
    (∃ R, opMulAssignScalar X s = some R ∧ opMulScalar X s = some R) := by
  obtain ⟨C, h1, _⟩ := opAdd_spec X Y
  obtain ⟨D, h2, _⟩ := opSub_spec X Y
  obtain ⟨E, h3, h4⟩ := opMulAssignScalar_spec X s
  obtain ⟨F, h5, h6⟩ := opMulScalar_spec X s
  have e : E = F := ext_entry (fun i j => by rw [h4, h6])
  refine ⟨⟨C, ?_, h1⟩, ⟨D, ?_, h2⟩, ⟨E, h3, e ▸ h5⟩⟩
  · unfold opAddAssign
    rw [h1]
    rfl
  · unfold opSubAssign
    rw [h2]
    rfl

/-! ## Row and column exchange, scalar operators, buffer constructor -/

/-- What `swapRows` computes for rows inside the matrix: it returns, and row `i`
of the result is row `swap a b i` of the receiver. -/
theorem swapRows_spec (X : Matrix α M N) (a b : Fin M) :
    ∃ R, X.swapRows a.val b.val = some R ∧
      ∀ i j, R.entry i j = X.entry (Equiv.swap a b i) j := by
  by_cases hab : a = b
  · subst hab
    refine ⟨X, ?_, fun i j => by rw [Equiv.swap_self]; rfl⟩
    unfold swapRows
    rw [if_pos rfl]
  · have hne : a.val ≠ b.val := fun h => hab (Fin.ext h)
    unfold swapRows
    rw [if_neg hne]
    obtain ⟨R, hR, hI⟩ := forRange_rule
      (fun l (s : Matrix α M N) => ∀ i j, s.entry i j =
        if j.val < l then X.entry (Equiv.swap a b i) j else X.entry i j)
      N (fun j self => do
        let tmp ← self.opCall a.val j
        let v ← self.opCall b.val j
        let self ← self.opCallAssign a.val j v
        self.opCallAssign b.val j tmp) X
      (by intro i j; rw [if_neg (Nat.not_lt_zero _)])
      (by
        intro l s hl hs
        have ea : s.entry a ⟨l, hl⟩ = X.entry a ⟨l, hl⟩ := by
          rw [hs, if_neg (Nat.lt_irrefl l)]
        have eb : s.entry b ⟨l, hl⟩ = X.entry b ⟨l, hl⟩ := by
          rw [hs, if_neg (Nat.lt_irrefl l)]
        refine ⟨(s.put a ⟨l, hl⟩ (X.entry b ⟨l, hl⟩)).put b ⟨l, hl⟩ (X.entry a ⟨l, hl⟩), ?_, ?_⟩
        · show (do
            let tmp ← s.opCall a.val l
            let v ← s.opCall b.val l
            let self ← s.opCallAssign a.val l v
            self.opCallAssign b.val l tmp) = _
          rw [opCall_lt s a.isLt hl, opCall_lt s b.isLt hl]
          simp only [Option.bind_eq_bind, Option.some_bind, opCallAssign_lt _ a.isLt hl,
            opCallAssign_lt _ b.isLt hl, Fin.eta, ea, eb]
        · intro i j
          rw [entry_put, entry_put, hs, Equiv.swap_apply_def]
          by_cases hj : j = ⟨l, hl⟩
          · subst hj
            have hba : ¬ b = a := fun h => hab h.symm
            by_cases hib : i = b
            · rw [hib]
              simp [hba]
            · by_cases hia : i = a
              · subst hia
                simp [hib]
              · simp [hia, hib]
          · have hjl : j.val ≠ l := fun h => hj (Fin.ext h)
            have e2 : (j.val < l + 1) = (j.val < l) := by
              apply propext; constructor <;> intro <;> omega
            simp only [hj, and_false, if_false, e2])
    exact ⟨R, hR, fun i j => by rw [hI, if_pos j.isLt]⟩

theorem swapCols_spec (X : Matrix α M N) (a b : Fin N) :
    ∃ R, X.swapCols a.val b.val = some R ∧
      ∀ i j, R.entry i j = X.entry i (Equiv.swap a b j) := by
  by_cases hab : a = b
  · subst hab
    refine ⟨X, ?_, fun i j => by rw [Equiv.swap_self]; rfl⟩
    unfold swapCols
    rw [if_pos rfl]
  · have hne : a.val ≠ b.val := fun h => hab (Fin.ext h)
    unfold swapCols
    rw [if_neg hne]
    obtain ⟨R, hR, hI⟩ := forRange_rule
      (fun l (s : Matrix α M N) => ∀ i j, s.entry i j =
        if i.val < l then X.entry i (Equiv.swap a b j) else X.entry i j)
      M (fun i self => do
        let tmp ← self.opCall i a.val
        let v ← self.opCall i b.val
        let self ← self.opCallAssign i a.val v
        self.opCallAssign i b.val tmp) X
      (by intro i j; rw [if_neg (Nat.not_lt_zero _)])
      (by
        intro l s hl hs
        have ea : s.entry ⟨l, hl⟩ a = X.entry ⟨l, hl⟩ a := by
          rw [hs, if_neg (Nat.lt_irrefl l)]
        have eb : s.entry ⟨l, hl⟩ b = X.entry ⟨l, hl⟩ b := by
          rw [hs, if_neg (Nat.lt_irrefl l)]
        refine ⟨(s.put ⟨l, hl⟩ a (X.entry ⟨l, hl⟩ b)).put ⟨l, hl⟩ b (X.entry ⟨l, hl⟩ a), ?_, ?_⟩
        · show (do
            let tmp ← s.opCall l a.val
            let v ← s.opCall l b.val
            let self ← s.opCallAssign l a.val v
            self.opCallAssign l b.val tmp) = _
          rw [opCall_lt s hl a.isLt, opCall_lt s hl b.isLt]
          simp only [Option.bind_eq_bind, Option.some_bind, opCallAssign_lt _ hl a.isLt,
            opCallAssign_lt _ hl b.isLt, Fin.eta, ea, eb]
        · intro i j
          rw [entry_put, entry_put, hs, Equiv.swap_apply_def]
          by_cases hi : i = ⟨l, hl⟩
          · subst hi
            have hba : ¬ b = a := fun h => hab h.symm
            by_cases hjb : j = b
            · rw [hjb]
              simp [hba]
            · by_cases hja : j = a
              · subst hja
                simp [hjb]
              · simp [hja, hjb]
          · have hil : i.val ≠ l := fun h => hi (Fin.ext h)
            have e2 : (i.val < l + 1) = (i.val < l) := by
              apply propext; constructor <;> intro <;> omega
            simp only [hi, false_and, if_false, e2])
    exact ⟨R, hR, fun i j => by rw [hI, if_pos i.isLt]⟩

theorem opAddScalar_spec [Zero α] [Add α] (A : Matrix α M N) (scalar : α) :
    ∃ C, opAddScalar A scalar = some C ∧ ∀ i j, C.entry i j = A.entry i j + scalar := by
  exact fill_same
    (fun i j res => do
      let a ← A.opCall i j
      res.opCallAssign i j (a + scalar))
    (fun i j => A.entry i j + scalar) ctor
    (fun i j s _ => by
      simp only [opCall_fin, opCallAssign_fin, Option.bind_eq_bind, Option.some_bind])

/-- The buffer constructor on a buffer of at least `M * N` scalars: the array
is the first `M * N` scalars of the buffer. -/
theorem ctorData_eq [Zero α] (buf : List α) (h : M * N ≤ buf.length) :
    ∃ A : Matrix α M N, ctorData buf = some A ∧ A._data = buf.take (M * N) := by
  have hlen : (ctor : Matrix α M N)._data.length = M * N := (ctor : Matrix α M N).size_eq
  unfold ctorData memcpy
  simp only
  rw [dif_pos ⟨h, Nat.le_of_eq hlen.symm⟩]
  refine ⟨_, rfl, ?_⟩
  show buf.take (M * N) ++ (ctor : Matrix α M N)._data.drop (M * N) = _
  rw [List.drop_eq_nil_of_le (Nat.le_of_eq hlen), List.append_nil]

/-! ## More sample runs -/

theorem transpose_twice_sample :
    (⟨[1, 2, 3, 4, 5, 6], rfl⟩ : Matrix Int 2 3).transpose = some ⟨[1, 4, 2, 5, 3, 6], rfl⟩ ∧
    (⟨[1, 4, 2, 5, 3, 6], rfl⟩ : Matrix Int 3 2).transpose = some ⟨[1, 2, 3, 4, 5, 6], rfl⟩ ∧
    opEq (⟨[1, 2, 3, 4, 5, 6], rfl⟩ : Matrix Int 2 3) ⟨[1, 2, 3, 4, 5, 6], rfl⟩ = some true := by
  decide

theorem opAdd_zero_sample :
    opAdd (⟨[1, -2, 3, 4], rfl⟩ : Matrix Int 2 2) ctor = some ⟨[1, -2, 3, 4], rfl⟩ ∧
    opAdd (⟨[1, -2, 3, 4], rfl⟩ : Matrix Int 2 2) (⟨[5, 6, 7, 8], rfl⟩ : Matrix Int 2 2).setZero
      = some ⟨[1, -2, 3, 4], rfl⟩ ∧
    opEq (⟨[1, -2, 3, 4], rfl⟩ : Matrix Int 2 2) ⟨[1, -2, 3, 4], rfl⟩ = some true := by
  decide

theorem swapRows_sample :
    (⟨[1, 2, 3, 4, 5, 6], rfl⟩ : Matrix Int 3 2).swapRows 0 2 = some ⟨[5, 6, 3, 4, 1, 2], rfl⟩ ∧
    (⟨[1, 2, 3, 4, 5, 6], rfl⟩ : Matrix Int 3 2).swapRows 0 3 = none ∧
    (⟨[1, 2, 3, 4, 5, 6], rfl⟩ : Matrix Int 3 2).swapRows 1 1 = some ⟨[1, 2, 3, 4, 5, 6], rfl⟩ := by
  decide

theorem swapCols_sample :
    (⟨[1, 2, 3, 4, 5, 6], rfl⟩ : Matrix Int 3 2).swapCols 0 1 = some ⟨[2, 1, 4, 3, 6, 5], rfl⟩ ∧
    (⟨[1, 2, 3, 4, 5, 6], rfl⟩ : Matrix Int 3 2).swapCols 1 2 = none := by
  decide

theorem ctorData_sample :
    (ctorData [1, 2, 3, 4, 5, 6] : Option (Matrix Int 2 3)) = some ⟨[1, 2, 3, 4, 5, 6], rfl⟩ ∧
    (ctorData [1, 2, 3, 4, 5] : Option (Matrix Int 2 3)) = none := by
  decide

theorem opDivAssign_sample :
    opDivAssign recipInt (⟨[6, -7], rfl⟩ : Matrix Int 1 2) 1 = some ⟨[6, -7], rfl⟩ ∧
    opDivAssign recipInt (⟨[6, -7], rfl⟩ : Matrix Int 1 2) (-1) = some ⟨[-6, 7], rfl⟩ ∧
    opDivAssign recipInt (⟨[6, -7], rfl⟩ : Matrix Int 1 2) 3 = some ⟨[0, 0], rfl⟩ := by
  decide

/-! ## The contract of scalar division, exchanges, buffers and accessors -/

/-- C12: for every `M × N` matrix `X` and row indices `a, b < M`, `swapRows(a, b)`
returns without touching an element outside the matrix, and afterwards row `a`
holds the old row `b`, row `b` the old row `a`, every other row is unchanged;
likewise `swapCols(c, d)` for column indices `c, d < N`, with columns in place
of rows. -/
theorem swapRows_swapCols_exchange (X : Matrix α M N) (a b c d : Nat)
    (ha : a < M) (hb : b < M) (hc : c < N) (hd : d < N) :
    (∃ R, X.swapRows a b = some R ∧ ∀ (j : Fin N),
      R.opCall a j = some (X.entry ⟨b, hb⟩ j) ∧
      R.opCall b j = some (X.entry ⟨a, ha⟩ j) ∧
      ∀ (i : Fin M), i.val ≠ a → i.val ≠ b → R.opCall i j = some (X.entry i j)) ∧
    (∃ R, X.swapCols c d = some R ∧ ∀ (i : Fin M),
      R.opCall i c = some (X.entry i ⟨d, hd⟩) ∧
      R.opCall i d = some (X.entry i ⟨c, hc⟩) ∧
      ∀ (j : Fin N), j.val ≠ c → j.val ≠ d → R.opCall i j = some (X.entry i j)) := by
  constructor
  · obtain ⟨R, h1, h2⟩ := swapRows_spec X ⟨a, ha⟩ ⟨b, hb⟩
    refine ⟨R, h1, fun j => ⟨?_, ?_, ?_⟩⟩
    · rw [opCall_lt R ha j.isLt, h2, Equiv.swap_apply_left]
    · rw [opCall_lt R hb j.isLt, h2, Equiv.swap_apply_right]
    · intro i hia hib
      rw [opCall_fin, h2, Equiv.swap_apply_of_ne_of_ne]
      · exact fun e => hia (congrArg Fin.val e)
      · exact fun e => hib (congrArg Fin.val e)
  · obtain ⟨R, h1, h2⟩ := swapCols_spec X ⟨c, hc⟩ ⟨d, hd⟩
    refine ⟨R, h1, fun i => ⟨?_, ?_, ?_⟩⟩
    · rw [opCall_lt R i.isLt hc, h2, Equiv.swap_apply_left]
    · rw [opCall_lt R i.isLt hd, h2, Equiv.swap_apply_right]
    · intro j hjc hjd
      rw [opCall_fin, h2, Equiv.swap_apply_of_ne_of_ne]
      · exact fun e => hjc (congrArg Fin.val e)
      · exact fun e => hjd (congrArg Fin.val e)

/-- A concrete instance of C12 on a 3 × 2 integer matrix. -/
theorem swapRows_swapCols_exchange_witness :
    (∃ R, (⟨[1, 2, 3, 4, 5, 6], rfl⟩ : Matrix Int 3 2).swapRows 0 2 = some R ∧
      ∀ (j : Fin 2),
      R.opCall 0 j = some ((⟨[1, 2, 3, 4, 5, 6], rfl⟩ : Matrix Int 3 2).entry ⟨2, by decide⟩ j) ∧
      R.opCall 2 j = some ((⟨[1, 2, 3, 4, 5, 6], rfl⟩ : Matrix Int 3 2).entry ⟨0, by decide⟩ j) ∧
      ∀ (i : Fin 3), i.val ≠ 0 → i.val ≠ 2 →
        R.opCall i j = some ((⟨[1, 2, 3, 4, 5, 6], rfl⟩ : Matrix Int 3 2).entry i j)) ∧
    (∃ R, (⟨[1, 2, 3, 4, 5, 6], rfl⟩ : Matrix Int 3 2).swapCols 1 0 = some R ∧
      ∀ (i : Fin 3),
      R.opCall i 1 = some ((⟨[1, 2, 3, 4, 5, 6], rfl⟩ : Matrix Int 3 2).entry i ⟨0, by decide⟩) ∧
      R.opCall i 0 = some ((⟨[1, 2, 3, 4, 5, 6], rfl⟩ : Matrix Int 3 2).entry i ⟨1, by decide⟩) ∧
      ∀ (j : Fin 2), j.val ≠ 1 → j.val ≠ 0 →
        R.opCall i j = some ((⟨[1, 2, 3, 4, 5, 6], rfl⟩ : Matrix Int 3 2).entry i j)) :=
  swapRows_swapCols_exchange (⟨[1, 2, 3, 4, 5, 6], rfl⟩ : Matrix Int 3 2) 0 2 1 0
    (by decide) (by decide) (by decide) (by decide)

/-- C13: for every `M × N` matrix `X` and in-range indices, `swapRows(a, b)`
applied twice gives back `X`, `swapCols(c, d)` applied twice gives back `X`, and
`swapRows(a, a)` and `swapCols(c, c)` leave `X` as it is. -/
theorem swap_twice (X : Matrix α M N) (a b c d : Nat)
    (ha : a < M) (hb : b < M) (hc : c < N) (hd : d < N) :
    (∃ R R2, X.swapRows a b = some R ∧ R.swapRows a b = some R2 ∧ R2 = X) ∧
    (∃ R R2, X.swapCols c d = some R ∧ R.swapCols c d = some R2 ∧ R2 = X) ∧
    X.swapRows a a = some X ∧ X.swapCols c c = some X := by
  refine ⟨?_, ?_, ?_, ?_⟩
  · obtain ⟨R, h1, h2⟩ := swapRows_spec X ⟨a, ha⟩ ⟨b, hb⟩
    obtain ⟨R2, h3, h4⟩ := swapRows_spec R ⟨a, ha⟩ ⟨b, hb⟩
    exact ⟨R, R2, h1, h3, ext_entry (fun i j => by rw [h4, h2, Equiv.swap_apply_self])⟩
  · obtain ⟨R, h1, h2⟩ := swapCols_spec X ⟨c, hc⟩ ⟨d, hd⟩
    obtain ⟨R2, h3, h4⟩ := swapCols_spec R ⟨c, hc⟩ ⟨d, hd⟩
    exact ⟨R, R2, h1, h3, ext_entry (fun i j => by rw [h4, h2, Equiv.swap_apply_self])⟩
  · unfold swapRows
    rw [if_pos rfl]
  · unfold swapCols
    rw [if_pos rfl]

/-- A concrete instance of C13 on a 3 × 2 integer matrix. -/
theorem swap_twice_witness :
    (∃ R R2, (⟨[1, 2, 3, 4, 5, 6], rfl⟩ : Matrix Int 3 2).swapRows 0 2 = some R ∧
      R.swapRows 0 2 = some R2 ∧ R2 = ⟨[1, 2, 3, 4, 5, 6], rfl⟩) ∧
    (∃ R R2, (⟨[1, 2, 3, 4, 5, 6], rfl⟩ : Matrix Int 3 2).swapCols 1 0 = some R ∧
      R.swapCols 1 0 = some R2 ∧ R2 = ⟨[1, 2, 3, 4, 5, 6], rfl⟩) ∧
    (⟨[1, 2, 3, 4, 5, 6], rfl⟩ : Matrix Int 3 2).swapRows 0 0 = some ⟨[1, 2, 3, 4, 5, 6], rfl⟩ ∧
    (⟨[1, 2, 3, 4, 5, 6], rfl⟩ : Matrix Int 3 2).swapCols 1 1 = some ⟨[1, 2, 3, 4, 5, 6], rfl⟩ :=
  swap_twice (⟨[1, 2, 3, 4, 5, 6], rfl⟩ : Matrix Int 3 2) 0 2 1 0
    (by decide) (by decide) (by decide) (by decide)

/-- C14: for every buffer of exactly `M * N` scalars, the buffer constructor
returns a matrix `A` with `A(i, j) = buffer[i * N + j]` for every `i < M`,
`j < N`; the flat storage read through `data()` is the buffer, and the matrix
constructed from `A.data()` is `A`. -/
theorem ctorData_row_major [Zero α] (buf : List α) (h : buf.length = M * N) :
    ∃ A : Matrix α M N, ctorData buf = some A ∧
      (∀ (i : Fin M) (j : Fin N), ∃ x, buf[i.val * N + j.val]? = some x ∧
        A.opCall i j = some x) ∧
      A.data = buf ∧ ctorData A.data = some A := by
  obtain ⟨A, h1, h2⟩ := @ctorData_eq α M N _ buf (Nat.le_of_eq h.symm)
  have h3 : A._data = buf := by
    rw [h2, List.take_of_length_le (Nat.le_of_eq h)]
  refine ⟨A, h1, ?_, h3, ?_⟩
  · intro i j
    refine ⟨A.entry i j, ?_, opCall_fin A i j⟩
    rw [← h3]
    exact getElem?_flat A i j
  · show ctorData A._data = some A
    rw [h3]
    exact h1

/-- A concrete instance of C14 on a buffer of six integers read as 2 × 3. -/
theorem ctorData_row_major_witness :
    ∃ A : Matrix Int 2 3, ctorData [1, 2, 3, 4, 5, 6] = some A ∧
      (∀ (i : Fin 2) (j : Fin 3), ∃ x, [1, 2, 3, 4, 5, 6][i.val * 3 + j.val]? = some x ∧
        A.opCall i j = some x) ∧
      A.data = [1, 2, 3, 4, 5, 6] ∧ ctorData A.data = some A :=
  ctorData_row_major [1, 2, 3, 4, 5, 6] rfl

/-- C15: for every `M × N` matrix `A`, position `(i, j)` inside it and scalar `x`:
the write `A(i, j) = x` succeeds, afterwards the read accessor returns `x` at
`(i, j)` and, at every other position, what it returned before.  (The read
accessor returns a value only; there is no matrix for it to change.) -/
theorem opCallAssign_then_opCall (A : Matrix α M N) (i : Fin M) (j : Fin N) (x : α) :
    ∃ A', A.opCallAssign i j x = some A' ∧ A'.opCall i j = some x ∧
      ∀ (i' : Fin M) (j' : Fin N), ¬ (i' = i ∧ j' = j) →
        A'.opCall i' j' = A.opCall i' j' := by
  refine ⟨A.put i j x, opCallAssign_fin A i j x, ?_, ?_⟩
  · rw [opCall_fin, entry_put_same]
  · intro i' j' hne
    rw [opCall_fin, opCall_fin, entry_put_ne A i i' j j' x hne]

/-- C16: for every `M × N` matrix `A` and scalar `s`, the scalar `operator*`
returns `C` with `C(i, j) = A(i, j) * s` and the scalar `operator+` returns `D`
with `D(i, j) = A(i, j) + s`, for every `i < M`, `j < N`. -/
theorem opMulScalar_opAddScalar_entries [Zero α] [Add α] [Mul α] (A : Matrix α M N) (s : α) :
    ∃ C D, opMulScalar A s = some C ∧ opAddScalar A s = some D ∧
      ∀ (i : Fin M) (j : Fin N),
        C.opCall i j = some (A.entry i j * s) ∧
        D.opCall i j = some (A.entry i j + s) := by
  obtain ⟨C, h1, h2⟩ := opMulScalar_spec A s
  obtain ⟨D, h3, h4⟩ := opAddScalar_spec A s
  exact ⟨C, D, h1, h3, fun i j => ⟨by rw [opCall_fin, h2], by rw [opCall_fin, h4]⟩⟩

/-! ## Derived laws over an exact scalar type -/

/-- C17: over a commutative exact scalar type (a commutative semiring with a
lawful equality test), for every `M × N` matrix `A` and `N × P` matrix `B`, all
the operations return and `(A * B).transpose() == B.transpose() * A.transpose()`
under `operator==`; the two matrices are the same. -/
theorem transpose_opMul [CommSemiring α] [BEq α] [LawfulBEq α]
    (A : Matrix α M N) (B : Matrix α N P) :
    ∃ (AB : Matrix α M P) (L : Matrix α P M) (BT : Matrix α P N) (AT : Matrix α N M)
      (R : Matrix α P M),
      opMul A B = some AB ∧ AB.transpose = some L ∧ B.transpose = some BT ∧
      A.transpose = some AT ∧ opMul BT AT = some R ∧ L = R ∧ opEq L R = some true := by
  obtain ⟨AB, h1, e1⟩ := opMul_spec_sum A B
  obtain ⟨L, h2, e2⟩ := transpose_spec AB
  obtain ⟨BT, h3, e3⟩ := transpose_spec B
  obtain ⟨AT, h4, e4⟩ := transpose_spec A
  obtain ⟨R, h5, e5⟩ := opMul_spec_sum BT AT
  have hLR : L = R := by
    apply ext_entry
    intro k i
    rw [e2, e1, e5]
    apply Finset.sum_congr rfl
    intro j _
    rw [e3, e4, mul_comm]
  exact ⟨AB, L, BT, AT, R, h1, h2, h3, h4, h5, hLR, (opEq_eq_true_iff L R).mpr hLR⟩

/-- A concrete instance of C17 on integer matrices of shapes 2 × 3 and 3 × 2. -/
theorem transpose_opMul_witness :
    ∃ (AB : Matrix Int 2 2) (L : Matrix Int 2 2) (BT : Matrix Int 2 3) (AT : Matrix Int 3 2)
      (R : Matrix Int 2 2),
      opMul (⟨[1, 2, 3, 4, 5, 6], rfl⟩ : Matrix Int 2 3)
        (⟨[1, 0, 0, 1, 1, 1], rfl⟩ : Matrix Int 3 2) = some AB ∧
      AB.transpose = some L ∧
      (⟨[1, 0, 0, 1, 1, 1], rfl⟩ : Matrix Int 3 2).transpose = some BT ∧
      (⟨[1, 2, 3, 4, 5, 6], rfl⟩ : Matrix Int 2 3).transpose = some AT ∧
      opMul BT AT = some R ∧ L = R ∧ opEq L R = some true :=
  transpose_opMul (⟨[1, 2, 3, 4, 5, 6], rfl⟩ : Matrix Int 2 3)
    (⟨[1, 0, 0, 1, 1, 1], rfl⟩ : Matrix Int 3 2)

/-- C18: over an exact scalar type (a semiring), for every `M × M` matrix `A` and
row indices `a, b < M`, with `Pm` the matrix obtained by `setIdentity()` (from
any prior content `X`) followed by `swapRows(a, b)`: `Pm * A` is `A` after
`swapRows(a, b)`, and `A * Pm` is `A` after `swapCols(a, b)`. -/
theorem swap_eq_opMul_permutation [Semiring α] (A X : Matrix α M M) (a b : Nat)
    (ha : a < M) (hb : b < M) :
    ∃ I Pm PA Ar AP Ac, X.setIdentity = some I ∧ I.swapRows a b = some Pm ∧
      opMul Pm A = some PA ∧ A.swapRows a b = some Ar ∧ PA = Ar ∧
      opMul A Pm = some AP ∧ A.swapCols a b = some Ac ∧ AP = Ac := by
  obtain ⟨I, hI, eI⟩ := setIdentity_spec X
  obtain ⟨Pm, hP, eP⟩ := swapRows_spec I ⟨a, ha⟩ ⟨b, hb⟩
  obtain ⟨PA, hPA, ePA⟩ := opMul_spec_sum Pm A
  obtain ⟨Ar, hAr, eAr⟩ := swapRows_spec A ⟨a, ha⟩ ⟨b, hb⟩
  obtain ⟨AP, hAP, eAP⟩ := opMul_spec_sum A Pm
  obtain ⟨Ac, hAc, eAc⟩ := swapCols_spec A ⟨a, ha⟩ ⟨b, hb⟩
  refine ⟨I, Pm, PA, Ar, AP, Ac, hI, hP, hPA, hAr, ?_, hAP, hAc, ?_⟩
  · apply ext_entry
    intro i k
    rw [ePA, eAr]
    simp only [eP, eI, Fin.val_inj, ite_mul, one_mul, zero_mul]
    rw [Finset.sum_ite_eq Finset.univ (Equiv.swap (⟨a, ha⟩ : Fin M) ⟨b, hb⟩ i)]
    simp
  · apply ext_entry
    intro i k
    rw [eAP, eAc]
    simp only [eP, eI, Fin.val_inj, mul_ite, mul_one, mul_zero]
    have hiff : ∀ j : Fin M, (Equiv.swap (⟨a, ha⟩ : Fin M) ⟨b, hb⟩ j = k) =
        (j = Equiv.swap (⟨a, ha⟩ : Fin M) ⟨b, hb⟩ k) := by
      intro j
      apply propext
      constructor
      · intro h; rw [← h, Equiv.swap_apply_self]
      · intro h; rw [h, Equiv.swap_apply_self]
    simp only [hiff]
    rw [Finset.sum_ite_eq' Finset.univ (Equiv.swap (⟨a, ha⟩ : Fin M) ⟨b, hb⟩ k)]
    simp

/-- A concrete instance of C18 on 2 × 2 integer matrices, exchanging rows 0 and 1. -/
theorem swap_eq_opMul_permutation_witness :
    ∃ I Pm PA Ar AP Ac, (⟨[7, 8, 9, 10], rfl⟩ : Matrix Int 2 2).setIdentity = some I ∧
      I.swapRows 0 1 = some Pm ∧
      opMul Pm (⟨[1, 2, 3, 4], rfl⟩ : Matrix Int 2 2) = some PA ∧
      (⟨[1, 2, 3, 4], rfl⟩ : Matrix Int 2 2).swapRows 0 1 = some Ar ∧ PA = Ar ∧
      opMul (⟨[1, 2, 3, 4], rfl⟩ : Matrix Int 2 2) Pm = some AP ∧
      (⟨[1, 2, 3, 4], rfl⟩ : Matrix Int 2 2).swapCols 0 1 = some Ac ∧ AP = Ac :=
  swap_eq_opMul_permutation (⟨[1, 2, 3, 4], rfl⟩ : Matrix Int 2 2) ⟨[7, 8, 9, 10], rfl⟩ 0 1
    (by decide) (by decide)

/-- C19: over an exact scalar type (a semiring with a lawful equality test), the
matrix product distributes over the element-wise sum on both sides:
`A * (B + C) == A * B + A * C` and `(A1 + A2) * B == A1 * B + A2 * B` under
`operator==`, every operation returning; the two sides are the same matrix. -/
theorem opMul_opAdd_distrib [Semiring α] [BEq α] [LawfulBEq α]
    (A A2 : Matrix α M N) (B C : Matrix α N P) :
    (∃ BC L AB AC R, opAdd B C = some BC ∧ opMul A BC = some L ∧ opMul A B = some AB ∧
      opMul A C = some AC ∧ opAdd AB AC = some R ∧ L = R ∧ opEq L R = some true) ∧
    (∃ AA L AB A2B R, opAdd A A2 = some AA ∧ opMul AA B = some L ∧ opMul A B = some AB ∧
      opMul A2 B = some A2B ∧ opAdd AB A2B = some R ∧ L = R ∧ opEq L R = some true) := by
  constructor
  · obtain ⟨BC, h1, e1⟩ := opAdd_spec B C
    obtain ⟨L, h2, e2⟩ := opMul_spec_sum A BC
    obtain ⟨AB, h3, e3⟩ := opMul_spec_sum A B
    obtain ⟨AC, h4, e4⟩ := opMul_spec_sum A C
    obtain ⟨R, h5, e5⟩ := opAdd_spec AB AC
    have hLR : L = R := by
      apply ext_entry
      intro i k
      rw [e2, e5, e3, e4, ← Finset.sum_add_distrib]
      apply Finset.sum_congr rfl
      intro j _
      rw [e1, mul_add]
    exact ⟨BC, L, AB, AC, R, h1, h2, h3, h4, h5, hLR, (opEq_eq_true_iff L R).mpr hLR⟩
  · obtain ⟨AA, h1, e1⟩ := opAdd_spec A A2
    obtain ⟨L, h2, e2⟩ := opMul_spec_sum AA B
    obtain ⟨AB, h3, e3⟩ := opMul_spec_sum A B
    obtain ⟨A2B, h4, e4⟩ := opMul_spec_sum A2 B
    obtain ⟨R, h5, e5⟩ := opAdd_spec AB A2B
    have hLR : L = R := by
      apply ext_entry
      intro i k
      rw [e2, e5, e3, e4, ← Finset.sum_add_distrib]
      apply Finset.sum_congr rfl
      intro j _
      rw [e1, add_mul]
    exact ⟨AA, L, AB, A2B, R, h1, h2, h3, h4, h5, hLR, (opEq_eq_true_iff L R).mpr hLR⟩

/-- A concrete instance of C19 on integer matrices of shapes 1 × 2 and 2 × 1. -/
theorem opMul_opAdd_distrib_witness :
    (∃ BC L AB AC R,
      opAdd (⟨[5, 6], rfl⟩ : Matrix Int 2 1) (⟨[7, -8], rfl⟩ : Matrix Int 2 1) = some BC ∧
      opMul (⟨[1, 2], rfl⟩ : Matrix Int 1 2) BC = some L ∧
      opMul (⟨[1, 2], rfl⟩ : Matrix Int 1 2) (⟨[5, 6], rfl⟩ : Matrix Int 2 1) = some AB ∧
      opMul (⟨[1, 2], rfl⟩ : Matrix Int 1 2) (⟨[7, -8], rfl⟩ : Matrix Int 2 1) = some AC ∧
      opAdd AB AC = some R ∧ L = R ∧ opEq L R = some true) ∧
    (∃ AA L AB A2B R,
      opAdd (⟨[1, 2], rfl⟩ : Matrix Int 1 2) (⟨[3, 4], rfl⟩ : Matrix Int 1 2) = some AA ∧
      opMul AA (⟨[5, 6], rfl⟩ : Matrix Int 2 1) = some L ∧
      opMul (⟨[1, 2], rfl⟩ : Matrix Int 1 2) (⟨[5, 6], rfl⟩ : Matrix Int 2 1) = some AB ∧
      opMul (⟨[3, 4], rfl⟩ : Matrix Int 1 2) (⟨[5, 6], rfl⟩ : Matrix Int 2 1) = some A2B ∧
      opAdd AB A2B = some R ∧ L = R ∧ opEq L R = some true) :=
  opMul_opAdd_distrib (⟨[1, 2], rfl⟩ : Matrix Int 1 2) (⟨[3, 4], rfl⟩ : Matrix Int 1 2)
    (⟨[5, 6], rfl⟩ : Matrix Int 2 1) (⟨[7, -8], rfl⟩ : Matrix Int 2 1)

/-- C20: for every `M × N` matrix `A` and column indices `a, b < N`, every
operation returns and the matrix obtained from `A` by `swapCols(a, b)` is the
transpose of the matrix obtained from `A.transpose()` by `swapRows(a, b)`. -/
theorem swapCols_eq_transpose_swapRows [Zero α] (A : Matrix α M N) (a b : Nat)
    (ha : a < N) (hb : b < N) :
    ∃ (C : Matrix α M N) (T : Matrix α N M) (S : Matrix α N M) (ST : Matrix α M N),
      A.swapCols a b = some C ∧ A.transpose = some T ∧ T.swapRows a b = some S ∧
      S.transpose = some ST ∧ C = ST := by
  obtain ⟨C, h1, e1⟩ := swapCols_spec A ⟨a, ha⟩ ⟨b, hb⟩
  obtain ⟨T, h2, e2⟩ := transpose_spec A
  obtain ⟨S, h3, e3⟩ := swapRows_spec T ⟨a, ha⟩ ⟨b, hb⟩
  obtain ⟨ST, h4, e4⟩ := transpose_spec S
  exact ⟨C, T, S, ST, h1, h2, h3, h4, ext_entry (fun i j => by rw [e1, e4, e3, e2])⟩

/-- A concrete instance of C20 on a 2 × 3 integer matrix, exchanging columns 0 and 2. -/
theorem swapCols_eq_transpose_swapRows_witness :
    ∃ (C : Matrix Int 2 3) (T : Matrix Int 3 2) (S : Matrix Int 3 2) (ST : Matrix Int 2 3),
      (⟨[1, 2, 3, 4, 5, 6], rfl⟩ : Matrix Int 2 3).swapCols 0 2 = some C ∧
      (⟨[1, 2, 3, 4, 5, 6], rfl⟩ : Matrix Int 2 3).transpose = some T ∧
      T.swapRows 0 2 = some S ∧ S.transpose = some ST ∧ C = ST :=
  swapCols_eq_transpose_swapRows (⟨[1, 2, 3, 4, 5, 6], rfl⟩ : Matrix Int 2 3) 0 2
    (by decide) (by decide)

end Matrix

end matrix
